import Mathlib

/-!
Verification of the worker-assignment MILP builder (`solver.py`,
`assign_workers_optimally`).  The Python function is shallowly embedded:
dicts become association lists in insertion order, boolean solver
variables become `Bool`-valued valuations, and the constraint system and
objective are expressed over those valuations.  The Euclidean distance of
`get_distance` is an irrational square root, so every definition is
parameterized over the distance function `dist`; theorems assume only its
nonnegativity, which holds for the square root.
-/

namespace FrSolver

/-- Coordinates of a worker or site: the `(lat, lon)` pair of the source. -/
abbrev Coord := ℚ × ℚ

/-- Worker record: the tuple `(worker_id, skill-proficiency dict, location)`. -/
structure Worker where
  id : ℕ
  skills : List (String × ℚ)
  loc : Coord
  deriving DecidableEq

/-- Site record: the tuple `(site_id, required-skill set, location)`. -/
structure Site where
  id : ℕ
  required : List String
  loc : Coord
  deriving DecidableEq

/-- Squared Euclidean distance; `get_distance` (solver.py line 4) returns its
nonnegative square root. -/
def get_distance_sq (c1 c2 : Coord) : ℚ :=
  (c1.1 - c2.1) ^ 2 + (c1.2 - c2.2) ^ 2

/-- Arguments of `assign_workers_optimally` with the Python default values
(solver.py lines 8-16). -/
structure Input where
  workers : List Worker
  sites : List Site
  skillW : ℚ := 1/2
  distW : ℚ := 1/2
  compatW : ℚ := 1/2
  sitePriorities : Option (List (ℕ × ℚ)) := none
  workerCompat : Option (List ((ℕ × ℕ) × ℚ)) := none

/-- Default priority dict built when `site_priorities` is None (line 36-37). -/
def defaultPriorities (ss : List Site) : List (ℕ × ℚ) :=
  ss.map fun s => (s.id, 1)

/-- Default all-neutral compatibility dict built when `worker_compatibility`
is None (lines 39-46). -/
def defaultCompat (ws : List Worker) : List ((ℕ × ℕ) × ℚ) :=
  ws.flatMap fun w1 => (ws.filter fun w2 => w1.id != w2.id).map fun w2 => ((w1.id, w2.id), 0)

/-- Body of the symmetric-completion loop (lines 50-51): when the mirrored
key is absent from the live dict, append the mirrored entry to it. -/
def symStep (acc : List ((ℕ × ℕ) × ℚ)) (e : (ℕ × ℕ) × ℚ) : List ((ℕ × ℕ) × ℚ) :=
  if (acc.lookup (e.1.2, e.1.1)).isSome then acc
  else acc ++ [((e.1.2, e.1.1), e.2)]

/-- Symmetric-completion pass (lines 49-51): iterate a snapshot of the dict
and write each missing mirrored entry back into the live dict, which in the
source is the caller-supplied dictionary itself. -/
def symmetrize (m : List ((ℕ × ℕ) × ℚ)) : List ((ℕ × ℕ) × ℚ) :=
  m.foldl symStep m

/-- Python `max` over a list of numbers; `none` on the empty list, where
Python raises ValueError. -/
def pyMax : List ℚ → Option ℚ
  | [] => none
  | h :: t => some (t.foldl max h)

/-- Python `min` over a list of numbers; `none` on the empty list. -/
def pyMin : List ℚ → Option ℚ
  | [] => none
  | h :: t => some (t.foldl min h)

/-- Min-max normalization of the compatibility dict (lines 59-68). -/
def normalizeCompat (m : List ((ℕ × ℕ) × ℚ)) : List ((ℕ × ℕ) × ℚ) :=
  let vals := m.map (·.2)
  let mx := (pyMax vals).getD 1
  let mn := (pyMin vals).getD 0
  let rng := if mx ≠ mn then mx - mn else 1
  m.map fun e => (e.1, (e.2 - mn) / rng)

/-- Required skills of a site that the worker also has: the guard of the
variable-creation loop (lines 91-92). -/
def eligSkills (w : Worker) (s : Site) : List String :=
  s.required.filter fun k => w.skills.any fun e => e.1 == k

/-- Triples enumerated by the decision-variable creation loops (lines 89-93). -/
def xTriples (ws : List Worker) (ss : List Site) : List (Worker × Site × String) :=
  ws.flatMap fun w => ss.flatMap fun s => (eligSkills w s).map fun k => (w, s, k)

/-- Keys of the decision-variable dict `x`. -/
def xKeys (ws : List Worker) (ss : List Site) : List (ℕ × ℕ × String) :=
  (xTriples ws ss).map fun t => (t.1.id, t.2.1.id, t.2.2)

/-- Site-skill pairs enumerated by the unfilled-variable loop (lines 107-109). -/
def uPairs (ss : List Site) : List (Site × String) :=
  ss.flatMap fun s => s.required.map fun k => (s, k)

/-- Keys of the `unfilled` dict. -/
def unfilledKeys (ss : List Site) : List (ℕ × String) :=
  (uPairs ss).map fun t => (t.1.id, t.2)

/-- Ordered pairs (earlier element, later element) of a list, as produced by
the nested loop `for i, w1 in enumerate(ids): for w2 in ids[i+1:]` (118-119). -/
def pairsOf : List ℕ → List (ℕ × ℕ)
  | [] => []
  | h :: t => (t.map fun b => (h, b)) ++ pairsOf t

/-- Keys of the `same_site_pairs` dict (lines 118-121). -/
def pairKeys (ws : List Worker) (ss : List Site) : List (ℕ × ℕ × ℕ) :=
  (pairsOf (ws.map (·.id))).flatMap fun ab => ss.map fun s => (ab.1, ab.2, s.id)

/-- Proficiency lookup `skills[skill]` (line 98); the 0 default is never hit
for created variables, whose skill passed the membership guard. -/
def profOf (w : Worker) (k : String) : ℚ :=
  (w.skills.lookup k).getD 0

/-- Maximum worker-site distance, folded from 0 over all pairs (lines 80-83). -/
def maxDistance (dist : Coord → Coord → ℚ) (ws : List Worker) (ss : List Site) : ℚ :=
  ws.foldl (fun acc w => ss.foldl (fun acc2 s => max acc2 (dist w.loc s.loc)) acc) 0

/-- Normalized distance `distance / max_distance if max_distance > 0 else 0`
(line 97). -/
def normalizedDistance (dist : Coord → Coord → ℚ) (ws : List Worker) (ss : List Site)
    (w : Worker) (s : Site) : ℚ :=
  if 0 < maxDistance dist ws ss then dist w.loc s.loc / maxDistance dist ws ss else 0

/-- Assignment cost coefficient (lines 102-103). -/
def assignCost (dw sw nd prof np : ℚ) : ℚ :=
  (1 / (np + 1/10)) * (dw * nd + sw * (1 - prof))

/-- Priority dict after None-defaulting (lines 36-37). -/
def spOf (inp : Input) : List (ℕ × ℚ) :=
  match inp.sitePriorities with
  | some m => m
  | none => defaultPriorities inp.sites

/-- Compatibility dict after None-defaulting and symmetric completion. -/
def wcOf (inp : Input) : List ((ℕ × ℕ) × ℚ) :=
  symmetrize (match inp.workerCompat with | some m => m | none => defaultCompat inp.workers)

/-- Value Python computes for `max_priority` (line 54), with 0 standing in for
the raising empty case. -/
def maxPOf (inp : Input) : ℚ :=
  (pyMax ((spOf inp).map (·.2))).getD 0

/-- Normalized priority dict (lines 54-57). -/
def nprOf (inp : Input) : List (ℕ × ℚ) :=
  (spOf inp).map fun e => (e.1, e.2 / maxPOf inp)

/-- Normalized compatibility dict (lines 65-68). -/
def ncOf (inp : Input) : List ((ℕ × ℕ) × ℚ) :=
  normalizeCompat (wcOf inp)

/-- Objective coefficient of a same-site indicator (lines 123-132); it stays
at the solver default 0 when the ordered pair is absent from the normalized
dict, since `SetCoefficient` is then never called. -/
def zCoeff (cw : ℚ) (nc : List ((ℕ × ℕ) × ℚ)) (w1 w2 : ℕ) : ℚ :=
  match nc.lookup (w1, w2) with
  | some v => -cw * v
  | none => 0

/-- Objective coefficient of decision variable `x[w,s,k]` (lines 96-104). -/
def xCoeff (dist : Coord → Coord → ℚ) (inp : Input) (w : Worker) (s : Site) (k : String) : ℚ :=
  assignCost inp.distW inp.skillW (normalizedDistance dist inp.workers inp.sites w s)
    (profOf w k) (((nprOf inp).lookup s.id).getD 0)

/-- Unfilled-position penalty coefficient (line 113). -/
def uCoeff (inp : Input) (s : Site) : ℚ :=
  100 * (2 - ((nprOf inp).lookup s.id).getD 0)

/-- Sequential effectful map modelling a Python for-loop that can raise:
the first error aborts the whole computation. -/
def mapE (f : α → Except String β) : List α → Except String (List β)
  | [] => .ok []
  | a :: t =>
    match f a with
    | .error e => .error e
    | .ok b =>
      match mapE f t with
      | .error e => .error e
      | .ok bs => .ok (b :: bs)

/-- Dict access `normalized_priorities[s_id]` (lines 102 and 113), raising
KeyError when the site id is absent. -/
def keyLookup (m : List (ℕ × ℚ)) (k : ℕ) : Except String ℚ :=
  match m.lookup k with
  | some v => .ok v
  | none => .error "KeyError"

/-- Variables of the constructed model with their objective coefficients, in
creation order. -/
structure Model where
  xC : List ((ℕ × ℕ × String) × ℚ)
  uC : List ((ℕ × String) × ℚ)
  zC : List ((ℕ × ℕ × ℕ) × ℚ)
  deriving DecidableEq

/-- One iteration of the decision-variable creation loop (lines 89-104): look
up the site's normalized priority (KeyError when absent) and emit the
variable key with its cost coefficient. -/
def xEntry (dist : Coord → Coord → ℚ) (inp : Input) (t : Worker × Site × String) :
    Except String ((ℕ × ℕ × String) × ℚ) :=
  match keyLookup (nprOf inp) t.2.1.id with
  | .error e => .error e
  | .ok np => .ok ((t.1.id, t.2.1.id, t.2.2),
      assignCost inp.distW inp.skillW
        (normalizedDistance dist inp.workers inp.sites t.1 t.2.1) (profOf t.1 t.2.2) np)

/-- One iteration of the unfilled-variable creation loop (lines 107-114). -/
def uEntry (inp : Input) (t : Site × String) : Except String ((ℕ × String) × ℚ) :=
  match keyLookup (nprOf inp) t.1.id with
  | .error e => .error e
  | .ok np => .ok ((t.1.id, t.2), 100 * (2 - np))

/-- Model construction of `assign_workers_optimally` up to the `Solve` call
(lines 31-134): defaulting, symmetric completion, normalization, variable
creation and objective coefficients.  Errors model the Python exceptions
raised on the way: ValueError from `max` on an empty sequence (line 54),
ZeroDivisionError from the priority normalization (lines 55-57), and KeyError
from the `normalized_priorities` lookups (lines 102 and 113). -/
def buildModel (dist : Coord → Coord → ℚ) (inp : Input) : Except String Model :=
  match pyMax ((spOf inp).map (·.2)) with
  | none => .error "ValueError"
  | some mp =>
    if mp = 0 then .error "ZeroDivisionError"
    else
      match mapE (xEntry dist inp) (xTriples inp.workers inp.sites) with
      | .error e => .error e
      | .ok xs =>
        match mapE (uEntry inp) (uPairs inp.sites) with
        | .error e => .error e
        | .ok us =>
          .ok ⟨xs, us, (pairKeys inp.workers inp.sites).map fun pk =>
            (pk, zCoeff inp.compatW (ncOf inp) pk.1 pk.2.1)⟩

/-- Values of all boolean variables of the model: a candidate solver solution. -/
structure Point where
  xv : ℕ × ℕ × String → Bool
  uv : ℕ × String → Bool
  zv : ℕ × ℕ × ℕ → Bool

/-- Bool as ℕ. -/
def b2n (b : Bool) : ℕ := cond b 1 0

/-- Bool as ℚ. -/
def b2q (b : Bool) : ℚ := cond b 1 0

/-- Value of a worker's exclusivity sum (lines 138-141). -/
def exclSum (ws : List Worker) (ss : List Site) (wid : ℕ) (xv : ℕ × ℕ × String → Bool) : ℕ :=
  (ss.flatMap fun s =>
    (s.required.filter fun k => (xKeys ws ss).contains (wid, s.id, k)).map fun k =>
      (wid, s.id, k)).countP xv

/-- Value of a slot-coverage sum (lines 146-151). -/
def coverSum (ws : List Worker) (ss : List Site) (sid : ℕ) (k : String)
    (xv : ℕ × ℕ × String → Bool) : ℕ :=
  ((ws.filter fun w => (xKeys ws ss).contains (w.id, sid, k)).map fun w =>
    (w.id, sid, k)).countP xv

/-- Required skills of the first site with the given id: the `next(...)`
expression of lines 160 and 167. -/
def siteReq (ss : List Site) (sid : ℕ) : List String :=
  match ss.find? fun s => s.id == sid with
  | some s => s.required
  | none => []

/-- Possible skill-assignment variables of one worker at one site (158-169). -/
def atSiteVars (ws : List Worker) (ss : List Site) (wid sid : ℕ) : List (ℕ × ℕ × String) :=
  ((siteReq ss sid).filter fun k => (xKeys ws ss).contains (wid, sid, k)).map fun k =>
    (wid, sid, k)

/-- Value of a worker's at-site sum. -/
def atSiteSum (ws : List Worker) (ss : List Site) (wid sid : ℕ)
    (xv : ℕ × ℕ × String → Bool) : ℕ :=
  (atSiteVars ws ss wid sid).countP xv

/-- Feasible points of the constraint system emitted in lines 136-178:
worker exclusivity, slot coverage, and the guarded AND-linearization of the
same-site indicators. -/
def Feasible (ws : List Worker) (ss : List Site) (p : Point) : Prop :=
  (∀ w ∈ ws, exclSum ws ss w.id p.xv ≤ 1) ∧
  (∀ s ∈ ss, ∀ k ∈ s.required,
    coverSum ws ss s.id k p.xv + b2n (p.uv (s.id, k)) = 1) ∧
  (∀ pk ∈ pairKeys ws ss,
    atSiteVars ws ss pk.1 pk.2.2 ≠ [] → atSiteVars ws ss pk.2.1 pk.2.2 ≠ [] →
      b2n (p.zv pk) ≤ atSiteSum ws ss pk.1 pk.2.2 p.xv ∧
      b2n (p.zv pk) ≤ atSiteSum ws ss pk.2.1 pk.2.2 p.xv ∧
      atSiteSum ws ss pk.1 pk.2.2 p.xv + atSiteSum ws ss pk.2.1 pk.2.2 p.xv ≤
        b2n (p.zv pk) + 1)

/-- Objective value of a point: the sum over all created variables of their
coefficient times their value (lines 86-134). -/
def objVal (m : Model) (p : Point) : ℚ :=
  (m.xC.map fun e => e.2 * b2q (p.xv e.1)).sum +
  (m.uC.map fun e => e.2 * b2q (p.uv e.1)).sum +
  (m.zC.map fun e => e.2 * b2q (p.zv e.1)).sum

/-- Result extraction (lines 183-187): every site id is put in the dict up
front, and assigned worker ids are appended in variable-creation order. -/
def extractAssignments (ws : List Worker) (ss : List Site) (xv : ℕ × ℕ × String → Bool) :
    List (ℕ × List ℕ) :=
  ss.map fun s => (s.id, ((xKeys ws ss).filter fun key => key.2.1 == s.id && xv key).map (·.1))

/-- Unfilled-positions report (lines 190-193), printed as a warning (line 196)
and then dropped: it is not part of the return value. -/
def extractUnfilled (ss : List Site) (uv : ℕ × String → Bool) : List (ℕ × String) :=
  (unfilledKeys ss).filter uv

/-! ### Generic list lemmas -/

theorem countP_flatMap (l : List α) (f : α → List β) (p : β → Bool) :
    (l.flatMap f).countP p = (l.map fun a => (f a).countP p).sum := by
  induction l with
  | nil => rfl
  | cons a t ih => simp [List.flatMap_cons, List.countP_append, ih]

theorem sum_map_ite {ι : Type _} (I : List ι) (p : ι → Bool) :
    (I.map fun i => if p i then 1 else 0).sum = I.countP p := by
  induction I with
  | nil => rfl
  | cons i t ih =>
    simp only [List.map_cons, List.sum_cons, List.countP_cons, ih]
    omega

theorem sum_map_add_nat {ι : Type _} (I : List ι) (f g : ι → ℕ) :
    (I.map fun i => f i + g i).sum = (I.map f).sum + (I.map g).sum := by
  induction I with
  | nil => rfl
  | cons i t ih =>
    simp only [List.map_cons, List.sum_cons, ih]
    omega

theorem sum_le_of_unique {ι : Type _} (I : List ι) (f : ι → ℕ) (d : ι → Bool) (c : ℕ)
    (h1 : ∀ i ∈ I, f i ≤ if d i then c else 0) (h2 : I.countP d ≤ 1) :
    (I.map f).sum ≤ c := by
  induction I with
  | nil => simp
  | cons i t ih =>
    rw [List.countP_cons] at h2
    by_cases hd : d i = true
    · have ht : t.countP d = 0 := by
        rw [if_pos hd] at h2
        omega
      have hz : (t.map f).sum = 0 := by
        apply List.sum_eq_zero
        intro x hx
        rcases List.mem_map.mp hx with ⟨j, hj, rfl⟩
        have hdj := List.countP_eq_zero.mp ht j hj
        have hfj := h1 j (List.mem_cons_of_mem _ hj)
        rw [if_neg hdj] at hfj
        omega
      have hfi := h1 i (List.mem_cons_self _ _)
      rw [if_pos hd] at hfi
      simp only [List.map_cons, List.sum_cons, hz]
      omega
    · have hfi := h1 i (List.mem_cons_self _ _)
      rw [if_neg hd] at hfi
      have hrec := ih fun j hj => h1 j (List.mem_cons_of_mem _ hj)
      simp only [List.map_cons, List.sum_cons]
      have := hrec (by omega)
      omega

theorem sum_countP_le {ι : Type _} (L : List α) (I : List ι) (q : α → Bool) (d : ι → α → Bool)
    (h : ∀ a ∈ L, q a = true → I.countP (fun i => d i a) ≤ 1) :
    (I.map fun i => L.countP fun a => q a && d i a).sum ≤ L.countP q := by
  induction L with
  | nil => simp
  | cons a t ih =>
    simp only [List.countP_cons, sum_map_add_nat, sum_map_ite]
    have htail := ih fun b hb hq => h b (List.mem_cons_of_mem _ hb) hq
    by_cases hq : q a = true
    · have hcongr : I.countP (fun i => q a && d i a) = I.countP (fun i => d i a) :=
        List.countP_congr fun i _ => by simp [hq]
      have hone := h a (List.mem_cons_self _ _) hq
      rw [hcongr, if_pos (by simp [hq])]
      omega
    · have hzero : I.countP (fun i => q a && d i a) = 0 :=
        List.countP_eq_zero.mpr fun i _ => by
          simp only [Bool.and_eq_true]
          rintro ⟨h1, -⟩
          exact hq h1
      rw [hzero, if_neg (by simp [hq])]
      omega

theorem countP_le_one_of_nodup_map {β : Type _} [BEq β] [LawfulBEq β]
    (L : List α) (f : α → β) (x : β) (h : (L.map f).Nodup) :
    L.countP (fun a => f a == x) ≤ 1 := by
  induction L with
  | nil => simp
  | cons a t ih =>
    rw [List.map_cons, List.nodup_cons] at h
    rw [List.countP_cons]
    by_cases hfa : (f a == x) = true
    · have hx : f a = x := by simpa using hfa
      have hzero : t.countP (fun b => f b == x) = 0 := by
        apply List.countP_eq_zero.mpr
        intro b hb hbx
        have hfb : f b = x := by simpa using hbx
        exact h.1 (by rw [hx, ← hfb]; exact List.mem_map_of_mem f hb)
      rw [hzero, if_pos hfa]
    · rw [if_neg hfa]
      have := ih h.2
      omega

theorem countP_eq_one_of_nodup_map {β : Type _} [BEq β] [LawfulBEq β]
    (L : List α) (f : α → β) (a : α) (ha : a ∈ L) (h : (L.map f).Nodup) :
    L.countP (fun b => f b == f a) = 1 := by
  have hle := countP_le_one_of_nodup_map L f (f a) h
  have hpos : 0 < L.countP (fun b => f b == f a) :=
    List.countP_pos_iff.mpr ⟨a, ha, by simp⟩
  omega

theorem lookup_map_value {κ γ γ' : Type _} [BEq κ] (m : List (κ × γ)) (g : γ → γ') (k : κ) :
    (m.map fun e => (e.1, g e.2)).lookup k = (m.lookup k).map g := by
  induction m with
  | nil => rfl
  | cons e t ih =>
    obtain ⟨k1, v1⟩ := e
    rw [List.map_cons, List.lookup_cons, List.lookup_cons]
    cases k == k1 <;> simp [ih]

theorem lookup_mem_values {κ γ : Type _} [BEq κ] (m : List (κ × γ)) (k : κ) (v : γ)
    (h : m.lookup k = some v) : v ∈ m.map (·.2) := by
  induction m with
  | nil => simp at h
  | cons e t ih =>
    obtain ⟨k1, v1⟩ := e
    rw [List.lookup_cons] at h
    cases hk : k == k1 with
    | true => rw [hk] at h; simp at h; simp [h]
    | false =>
      rw [hk] at h
      simp only [List.map_cons, List.mem_cons]
      exact Or.inr (ih h)

theorem foldl_step_le {α : Type _} (step : ℚ → α → ℚ) (hstep : ∀ acc x, acc ≤ step acc x)
    (l : List α) (init : ℚ) : init ≤ l.foldl step init := by
  induction l generalizing init with
  | nil => exact le_refl _
  | cons a t ih => exact le_trans (hstep init a) (ih (step init a))

theorem foldl_step_bound {α : Type _} (step : ℚ → α → ℚ) (g : α → ℚ)
    (hstep : ∀ acc x, acc ≤ step acc x) (hself : ∀ acc x, g x ≤ step acc x)
    (l : List α) (init : ℚ) : ∀ x ∈ l, g x ≤ l.foldl step init := by
  induction l generalizing init with
  | nil => intro x hx; cases hx
  | cons a t ih =>
    intro x hx
    rcases List.mem_cons.mp hx with rfl | hx
    · exact le_trans (hself init x) (foldl_step_le step hstep t (step init x))
    · exact ih (step init a) x hx

theorem pyMax_ge (l : List ℚ) (v : ℚ) (hv : pyMax l = some v) : ∀ x ∈ l, x ≤ v := by
  cases l with
  | nil => simp [pyMax] at hv
  | cons h t =>
    simp only [pyMax, Option.some.injEq] at hv
    subst hv
    intro x hx
    rcases List.mem_cons.mp hx with rfl | hx
    · exact foldl_step_le max (fun a b => le_max_left a b) t x
    · exact foldl_step_bound max id (fun a b => le_max_left a b)
        (fun a b => le_max_right a b) t h x hx

theorem foldl_min_le (l : List ℚ) (init : ℚ) : l.foldl min init ≤ init := by
  induction l generalizing init with
  | nil => exact le_refl _
  | cons a t ih => exact le_trans (ih (min init a)) (min_le_left init a)

theorem foldl_min_bound (l : List ℚ) (init : ℚ) : ∀ x ∈ l, l.foldl min init ≤ x := by
  induction l generalizing init with
  | nil => intro x hx; cases hx
  | cons a t ih =>
    intro x hx
    rcases List.mem_cons.mp hx with rfl | hx
    · exact le_trans (foldl_min_le t (min init x)) (min_le_right init x)
    · exact ih (min init a) x hx

theorem pyMin_le (l : List ℚ) (v : ℚ) (hv : pyMin l = some v) : ∀ x ∈ l, v ≤ x := by
  cases l with
  | nil => simp [pyMin] at hv
  | cons h t =>
    simp only [pyMin, Option.some.injEq] at hv
    subst hv
    intro x hx
    rcases List.mem_cons.mp hx with rfl | hx
    · exact foldl_min_le t x
    · exact foldl_min_bound t h x hx

/-! ### Properties of the symmetric-completion pass -/

theorem symStep_extends (acc : List ((ℕ × ℕ) × ℚ)) (e : (ℕ × ℕ) × ℚ) :
    ∃ extra, symStep acc e = acc ++ extra := by
  unfold symStep
  by_cases h : (acc.lookup (e.1.2, e.1.1)).isSome
  · exact ⟨[], by simp [h]⟩
  · exact ⟨[((e.1.2, e.1.1), e.2)], by simp [h]⟩

theorem foldl_symStep_extends (l acc : List ((ℕ × ℕ) × ℚ)) :
    ∃ extra, l.foldl symStep acc = acc ++ extra := by
  induction l generalizing acc with
  | nil => exact ⟨[], by simp⟩
  | cons e t ih =>
    rcases symStep_extends acc e with ⟨x, hx⟩
    rcases ih (symStep acc e) with ⟨y, hy⟩
    exact ⟨x ++ y, by rw [List.foldl_cons, hy, hx, List.append_assoc]⟩

theorem lookup_isSome_append {κ γ : Type _} [BEq κ] (m extra : List (κ × γ)) (k : κ)
    (h : (m.lookup k).isSome = true) : ((m ++ extra).lookup k).isSome = true := by
  induction m with
  | nil => simp at h
  | cons e t ih =>
    obtain ⟨k1, v1⟩ := e
    rw [List.cons_append, List.lookup_cons]
    rw [List.lookup_cons] at h
    cases hk : k == k1 with
    | true => simp
    | false =>
      rw [hk] at h
      exact ih h

theorem lookup_append_self {κ γ : Type _} [BEq κ] [LawfulBEq κ] (m : List (κ × γ)) (k : κ) (v : γ) :
    (((m ++ [(k, v)]).lookup k)).isSome = true := by
  induction m with
  | nil => simp [List.lookup_cons]
  | cons e t ih =>
    obtain ⟨k1, v1⟩ := e
    rw [List.cons_append, List.lookup_cons]
    cases hk : k == k1 with
    | true => simp
    | false => exact ih

theorem foldl_symStep_fix (l acc : List ((ℕ × ℕ) × ℚ))
    (h : ∀ e ∈ l, (acc.lookup (e.1.2, e.1.1)).isSome = true) :
    l.foldl symStep acc = acc := by
  induction l with
  | nil => rfl
  | cons e t ih =>
    have hstep : symStep acc e = acc := by
      unfold symStep
      rw [if_pos (h e (List.mem_cons_self _ _))]
    rw [List.foldl_cons, hstep]
    exact ih fun e' he' => h e' (List.mem_cons_of_mem _ he')

theorem foldl_symStep_mirror (l acc : List ((ℕ × ℕ) × ℚ)) :
    ∀ e ∈ l, ((l.foldl symStep acc).lookup (e.1.2, e.1.1)).isSome = true := by
  induction l generalizing acc with
  | nil => intro e he; cases he
  | cons e0 t ih =>
    intro e he
    rw [List.foldl_cons]
    rcases List.mem_cons.mp he with rfl | he
    · have hstep : ((symStep acc e).lookup (e.1.2, e.1.1)).isSome = true := by
        unfold symStep
        by_cases h : (acc.lookup (e.1.2, e.1.1)).isSome = true
        · rw [if_pos h]; exact h
        · rw [if_neg h]; exact lookup_append_self acc (e.1.2, e.1.1) e.2
      rcases foldl_symStep_extends t (symStep acc e) with ⟨extra, hx⟩
      rw [hx]
      exact lookup_isSome_append _ extra _ hstep
    · exact ih (symStep acc e0) e he

/-- C9 counterexample: symmetric completion is performed on the
caller-supplied dictionary itself (solver.py line 51 assigns into
`worker_compatibility`), and on a dict missing a mirrored entry it changes
that dict, so the caller's compatibility map is not left unchanged. -/
theorem symmetrize_mutates_counterexample :
    symmetrize [((1, 2), (4/5 : ℚ))] ≠ [((1, 2), (4/5 : ℚ))] := by
  simp [symmetrize, symStep, List.lookup]
  rfl

/-- C9 amended: the worker list, site list and priority map are indeed left
unchanged, but the caller's compatibility dict is mutated in place by the
symmetric-completion pass; the pass only appends mirrored entries (never
drops or edits existing ones), it is the identity exactly on dicts already
containing every mirrored key, and afterwards every entry's mirrored key is
present. -/
theorem symmetrize_amended :
    (∀ m : List ((ℕ × ℕ) × ℚ), ∃ extra, symmetrize m = m ++ extra) ∧
    (∀ m : List ((ℕ × ℕ) × ℚ),
      (∀ e ∈ m, (m.lookup (e.1.2, e.1.1)).isSome = true) → symmetrize m = m) ∧
    (∀ m : List ((ℕ × ℕ) × ℚ), ∀ e ∈ m,
      ((symmetrize m).lookup (e.1.2, e.1.1)).isSome = true) := by
  refine ⟨fun m => foldl_symStep_extends m m, fun m h => foldl_symStep_fix m m h,
    fun m e he => foldl_symStep_mirror m m e he⟩

instance feasibleDecidable (ws : List Worker) (ss : List Site) (p : Point) :
    Decidable (Feasible ws ss p) := by
  unfold Feasible
  infer_instance

/-! ### Claim C1: slot coverage and unconditional feasibility -/

theorem all_unfilled_feasible (ws : List Worker) (ss : List Site) :
    Feasible ws ss ⟨fun _ => false, fun _ => true, fun _ => false⟩ := by
  refine ⟨?_, ?_, ?_⟩
  · intro w _
    simp [exclSum]
  · intro s _ k _
    simp [coverSum, b2n]
  · intro pk _ _ _
    simp [atSiteSum, b2n]

/-- C1: in every feasible point of the constructed model, every required
(site, skill) slot's eligible-worker sum plus its unfilled variable equals
exactly 1 (the constraint of solver.py lines 143-152); when no worker is
eligible for the slot the unfilled variable is forced to 1; and the model is
feasible for every input, the all-unfilled point being a witness, so skill
shortages never yield infeasibility. -/
theorem slot_coverage_total (ws : List Worker) (ss : List Site) (p : Point)
    (hfeas : Feasible ws ss p) (s : Site) (hs : s ∈ ss) (k : String) (hk : k ∈ s.required) :
    coverSum ws ss s.id k p.xv + b2n (p.uv (s.id, k)) = 1 ∧
    ((ws.filter fun w => (xKeys ws ss).contains (w.id, s.id, k)) = [] →
      p.uv (s.id, k) = true) ∧
    ∃ q : Point, Feasible ws ss q := by
  refine ⟨hfeas.2.1 s hs k hk, ?_, ?_⟩
  · intro hempty
    have h1 := hfeas.2.1 s hs k hk
    rw [coverSum, hempty] at h1
    simp only [List.map_nil, List.countP_nil, Nat.zero_add] at h1
    cases hbv : p.uv (s.id, k)
    · rw [hbv] at h1
      simp [b2n] at h1
    · rfl
  · exact ⟨_, all_unfilled_feasible ws ss⟩

/-- Concrete data: one electrician, one site requiring an electrician and a
plumber (the spec's Scenario B shape). -/
def wsB : List Worker := [⟨1, [("e", 1)], (0, 0)⟩]

/-- Concrete site list with an uncoverable plumber slot. -/
def ssB : List Site := [⟨7, ["e", "p"], (0, 0)⟩]

/-- Concrete point: the electrician fills slot (7, e) and slot (7, p) is
marked unfilled. -/
def pB : Point :=
  ⟨fun key => key == (1, 7, "e"), fun uk => uk == (7, "p"), fun _ => false⟩

theorem slot_coverage_total_witness :
    coverSum wsB ssB 7 "p" pB.xv + b2n (pB.uv (7, "p")) = 1 ∧
    ((wsB.filter fun w => (xKeys wsB ssB).contains (w.id, 7, "p")) = [] →
      pB.uv (7, "p") = true) ∧
    ∃ q : Point, Feasible wsB ssB q :=
  slot_coverage_total wsB ssB pB (by decide) ⟨7, ["e", "p"], (0, 0)⟩ (by decide) "p" (by decide)

/-! ### Claim C3: same-site indicator variables -/

theorem pairsOf_mem (l : List ℕ) : ∀ q ∈ pairsOf l, q.1 ∈ l ∧ q.2 ∈ l := by
  induction l with
  | nil => intro q hq; cases hq
  | cons h t ih =>
    intro q hq
    simp only [pairsOf, List.mem_append] at hq
    rcases hq with hq | hq
    · rcases List.mem_map.mp hq with ⟨x, hx, rfl⟩
      exact ⟨List.mem_cons_self _ _, List.mem_cons_of_mem _ hx⟩
    · rcases ih q hq with ⟨h1, h2⟩
      exact ⟨List.mem_cons_of_mem _ h1, List.mem_cons_of_mem _ h2⟩

theorem pairsOf_ne (l : List ℕ) (hnd : l.Nodup) : ∀ q ∈ pairsOf l, q.1 ≠ q.2 := by
  induction l with
  | nil => intro q hq; cases hq
  | cons h t ih =>
    rw [List.nodup_cons] at hnd
    intro q hq
    simp only [pairsOf, List.mem_append] at hq
    rcases hq with hq | hq
    · rcases List.mem_map.mp hq with ⟨x, hx, rfl⟩
      intro hcon
      have hhx : h = x := hcon
      apply hnd.1
      rw [hhx]
      exact hx
    · exact ih hnd.2 q hq

theorem pairsOf_countP (l : List ℕ) (hnd : l.Nodup) (a b : ℕ) (ha : a ∈ l) (hb : b ∈ l)
    (hab : a ≠ b) :
    (pairsOf l).countP (fun q => (q.1 == a && q.2 == b) || (q.1 == b && q.2 == a)) = 1 := by
  induction l with
  | nil => cases ha
  | cons h t ih =>
    rw [List.nodup_cons] at hnd
    simp only [pairsOf, List.countP_append, List.countP_map]
    rcases List.mem_cons.mp ha with rfl | hat
    · have hbt : b ∈ t := by
        rcases List.mem_cons.mp hb with rfl | hbt
        · exact absurd rfl hab
        · exact hbt
      have hmap : t.countP
          ((fun q : ℕ × ℕ => (q.1 == a && q.2 == b) || (q.1 == b && q.2 == a)) ∘
            fun x => (a, x)) = 1 := by
        have hcg : t.countP
            ((fun q : ℕ × ℕ => (q.1 == a && q.2 == b) || (q.1 == b && q.2 == a)) ∘
              fun x => (a, x)) = t.countP (fun x => x == b) := by
          apply List.countP_congr
          intro x _
          simp [Function.comp, hab]
        rw [hcg, ← List.count_eq_countP]
        exact List.count_eq_one_of_mem hnd.2 hbt
      have hrec : (pairsOf t).countP
          (fun q : ℕ × ℕ => (q.1 == a && q.2 == b) || (q.1 == b && q.2 == a)) = 0 := by
        apply List.countP_eq_zero.mpr
        intro q hq hpred
        rcases pairsOf_mem t q hq with ⟨h1, h2⟩
        simp only [Bool.or_eq_true, Bool.and_eq_true, beq_iff_eq] at hpred
        rcases hpred with ⟨hq1, -⟩ | ⟨-, hq2⟩
        · exact hnd.1 (hq1 ▸ h1)
        · exact hnd.1 (hq2 ▸ h2)
      rw [hmap, hrec]
    · rcases List.mem_cons.mp hb with rfl | hbt
      · have hmap : t.countP
            ((fun q : ℕ × ℕ => (q.1 == a && q.2 == b) || (q.1 == b && q.2 == a)) ∘
              fun x => (b, x)) = 1 := by
          have hcg : t.countP
              ((fun q : ℕ × ℕ => (q.1 == a && q.2 == b) || (q.1 == b && q.2 == a)) ∘
                fun x => (b, x)) = t.countP (fun x => x == a) := by
            apply List.countP_congr
            intro x _
            simp [Function.comp, Ne.symm hab]
          rw [hcg, ← List.count_eq_countP]
          exact List.count_eq_one_of_mem hnd.2 hat
        have hrec : (pairsOf t).countP
            (fun q : ℕ × ℕ => (q.1 == a && q.2 == b) || (q.1 == b && q.2 == a)) = 0 := by
          apply List.countP_eq_zero.mpr
          intro q hq hpred
          rcases pairsOf_mem t q hq with ⟨h1, h2⟩
          simp only [Bool.or_eq_true, Bool.and_eq_true, beq_iff_eq] at hpred
          rcases hpred with ⟨-, hq2⟩ | ⟨hq1, -⟩
          · exact hnd.1 (hq2 ▸ h2)
          · exact hnd.1 (hq1 ▸ h1)
        rw [hmap, hrec]
      · have hha : h ≠ a := fun hcon => hnd.1 (hcon ▸ hat)
        have hhb : h ≠ b := fun hcon => hnd.1 (hcon ▸ hbt)
        have hmap : t.countP
            ((fun q : ℕ × ℕ => (q.1 == a && q.2 == b) || (q.1 == b && q.2 == a)) ∘
              fun x => (h, x)) = 0 := by
          apply List.countP_eq_zero.mpr
          intro x _
          simp [Function.comp, hha, hhb]
        rw [hmap, ih hnd.2 hat hbt]

/-- Concrete data for C3: two workers with skill a only, one site requiring
only skill b, so neither worker is eligible at the site. -/
def wsQ : List Worker := [⟨1, [("a", 1)], (0, 0)⟩, ⟨2, [("a", 1)], (0, 0)⟩]

/-- Concrete site list for C3. -/
def ssQ : List Site := [⟨201, ["b"], (0, 0)⟩]

/-- Concrete point for C3 setting the orphan same-site indicator to 1. -/
def pQ : Point := ⟨fun _ => false, fun _ => true, fun _ => true⟩

/-- C3 counterexample: the same-site indicator for the pair (1,2) at site 201
exists although neither worker is eligible there, and the point setting it to
1 is feasible — the emitted constraints (solver.py lines 154-178 are guarded
by both eligibility lists being non-empty) do not force it to 0. -/
theorem pair_indicator_counterexample :
    Feasible wsQ ssQ pQ ∧ (1, 2, 201) ∈ pairKeys wsQ ssQ ∧
    atSiteVars wsQ ssQ 1 201 = [] ∧ atSiteVars wsQ ssQ 2 201 = [] ∧
    pQ.zv (1, 2, 201) = true := by
  refine ⟨by decide, by decide, by decide, by decide, rfl⟩

/-- C3 amended: for every unordered pair of distinct worker ids and every
site, exactly one same-site indicator variable is created; but when either
worker of the pair has no eligible skill at the site, no constraint mentions
that indicator (the guard of solver.py line 172 fails), so it is left
unconstrained: flipping it to any value preserves feasibility, rather than
being forced to 0. -/
theorem pair_indicator_amended (ws : List Worker) (ss : List Site)
    (hwnd : (ws.map Worker.id).Nodup) (hsnd : (ss.map Site.id).Nodup)
    (a b : ℕ) (ha : a ∈ ws.map Worker.id) (hb : b ∈ ws.map Worker.id) (hab : a ≠ b)
    (s : Site) (hs : s ∈ ss) :
    ((pairKeys ws ss).countP fun pk =>
      ((pk.1 == a && pk.2.1 == b) || (pk.1 == b && pk.2.1 == a)) && pk.2.2 == s.id) = 1 ∧
    (∀ p : Point, Feasible ws ss p → ∀ pk ∈ pairKeys ws ss,
      (atSiteVars ws ss pk.1 pk.2.2 = [] ∨ atSiteVars ws ss pk.2.1 pk.2.2 = []) →
      ∀ v : Bool,
        Feasible ws ss ⟨p.xv, p.uv, fun pk2 => if pk2 == pk then v else p.zv pk2⟩) := by
  constructor
  · rw [pairKeys, countP_flatMap]
    have hsite : ∀ ab : ℕ × ℕ,
        ((ss.map fun s2 => (ab.1, ab.2, s2.id)).countP fun pk =>
          ((pk.1 == a && pk.2.1 == b) || (pk.1 == b && pk.2.1 == a)) && pk.2.2 == s.id)
        = if (ab.1 == a && ab.2 == b) || (ab.1 == b && ab.2 == a) then 1 else 0 := by
      intro ab
      rw [List.countP_map]
      by_cases hcase : ((ab.1 == a && ab.2 == b) || (ab.1 == b && ab.2 == a)) = true
      · rw [if_pos hcase]
        have hcg : (ss.countP ((fun pk : ℕ × ℕ × ℕ =>
            ((pk.1 == a && pk.2.1 == b) || (pk.1 == b && pk.2.1 == a)) && pk.2.2 == s.id) ∘
              fun s2 => (ab.1, ab.2, s2.id)))
            = ss.countP fun s2 => s2.id == s.id := by
          apply List.countP_congr
          intro s2 _
          simp [Function.comp, hcase]
        rw [hcg]
        exact countP_eq_one_of_nodup_map ss Site.id s hs hsnd
      · rw [if_neg hcase]
        apply List.countP_eq_zero.mpr
        intro s2 _
        simp only [Function.comp, Bool.and_eq_true]
        rintro ⟨h1, -⟩
        exact hcase h1
    have hmapcg : ((pairsOf (ws.map Worker.id)).map fun ab =>
        ((ss.map fun s2 => (ab.1, ab.2, s2.id)).countP fun pk =>
          ((pk.1 == a && pk.2.1 == b) || (pk.1 == b && pk.2.1 == a)) && pk.2.2 == s.id))
        = (pairsOf (ws.map Worker.id)).map fun ab =>
            if (ab.1 == a && ab.2 == b) || (ab.1 == b && ab.2 == a) then 1 else 0 :=
      List.map_congr_left fun ab _ => hsite ab
    rw [hmapcg, sum_map_ite]
    exact pairsOf_countP (ws.map Worker.id) hwnd a b ha hb hab
  · intro p hfeas pk hpk hvac v
    refine ⟨hfeas.1, hfeas.2.1, ?_⟩
    intro pk2 hpk2 hne1 hne2
    by_cases heq : (pk2 == pk) = true
    · have hpkeq : pk2 = pk := by simpa using heq
      subst hpkeq
      rcases hvac with hval | hval
      · exact absurd hval hne1
      · exact absurd hval hne2
    · have hne : pk2 ≠ pk := by simpa using heq
      simpa [hne] using hfeas.2.2 pk2 hpk2 hne1 hne2

theorem pair_indicator_amended_witness :
    ((pairKeys wsQ ssQ).countP fun pk =>
      ((pk.1 == 1 && pk.2.1 == 2) || (pk.1 == 2 && pk.2.1 == 1)) && pk.2.2 == 201) = 1 ∧
    (∀ p : Point, Feasible wsQ ssQ p → ∀ pk ∈ pairKeys wsQ ssQ,
      (atSiteVars wsQ ssQ pk.1 pk.2.2 = [] ∨ atSiteVars wsQ ssQ pk.2.1 pk.2.2 = []) →
      ∀ v : Bool,
        Feasible wsQ ssQ ⟨p.xv, p.uv, fun pk2 => if pk2 == pk then v else p.zv pk2⟩) :=
  pair_indicator_amended wsQ ssQ (by decide) (by decide) 1 2 (by decide) (by decide)
    (by decide) ⟨201, ["b"], (0, 0)⟩ (by decide)

/-! ### Pipeline helpers: mapE, keyLookup, membership lemmas -/

theorem prodBeq {α β : Type _} [BEq α] [BEq β] (a : α × β) (b : α × β) :
    (a == b) = (a.1 == b.1 && a.2 == b.2) := rfl

theorem mapE_ok_of_forall {α β : Type _} (f : α → Except String β) (g : α → β) (l : List α)
    (h : ∀ a ∈ l, f a = .ok (g a)) : mapE f l = .ok (l.map g) := by
  induction l with
  | nil => rfl
  | cons a t ih =>
    unfold mapE
    rw [h a (List.mem_cons_self _ _), ih fun b hb => h b (List.mem_cons_of_mem _ hb)]
    rfl

theorem mapE_ok_mem {α β : Type _} (f : α → Except String β) (l : List α) (r : List β)
    (h : mapE f l = .ok r) : ∀ a ∈ l, ∃ b, f a = .ok b := by
  induction l generalizing r with
  | nil => intro a ha; cases ha
  | cons a0 t ih =>
    intro a ha
    unfold mapE at h
    cases hf : f a0 with
    | error e => rw [hf] at h; cases h
    | ok b0 =>
      rw [hf] at h
      cases ht : mapE f t with
      | error e => rw [ht] at h; cases h
      | ok r0 =>
        rcases List.mem_cons.mp ha with rfl | ha
        · exact ⟨b0, hf⟩
        · exact ih r0 ht a ha

theorem keyLookup_ok (m : List (ℕ × ℚ)) (k : ℕ) (v : ℚ) (h : m.lookup k = some v) :
    keyLookup m k = .ok v := by
  simp [keyLookup, h]

theorem buildModel_ok_elim (dist : Coord → Coord → ℚ) (inp : Input) (m : Model)
    (h : buildModel dist inp = .ok m) :
    mapE (xEntry dist inp) (xTriples inp.workers inp.sites) = .ok m.xC ∧
    mapE (uEntry inp) (uPairs inp.sites) = .ok m.uC ∧
    m.zC = (pairKeys inp.workers inp.sites).map fun pk =>
      (pk, zCoeff inp.compatW (ncOf inp) pk.1 pk.2.1) := by
  unfold buildModel at h
  split at h
  · cases h
  · split at h
    · cases h
    · split at h
      · cases h
      · rename_i xs hx
        split at h
        · cases h
        · rename_i us hu
          simp only [Except.ok.injEq] at h
          subst h
          exact ⟨hx, hu, rfl⟩

theorem uPairs_mem (ss : List Site) (t : Site × String) (h : t ∈ uPairs ss) :
    t.1 ∈ ss ∧ t.2 ∈ t.1.required := by
  simp only [uPairs, List.mem_flatMap, List.mem_map] at h
  rcases h with ⟨s, hs, k, hk, hkt⟩
  subst hkt
  exact ⟨hs, hk⟩

theorem uPairs_mem_of (ss : List Site) (s : Site) (k : String) (hs : s ∈ ss)
    (hk : k ∈ s.required) : (s, k) ∈ uPairs ss := by
  simp only [uPairs, List.mem_flatMap, List.mem_map]
  exact ⟨s, hs, k, hk, rfl⟩

theorem xTriples_mem (ws : List Worker) (ss : List Site) (t : Worker × Site × String)
    (h : t ∈ xTriples ws ss) : t.1 ∈ ws ∧ t.2.1 ∈ ss ∧ t.2.2 ∈ eligSkills t.1 t.2.1 := by
  simp only [xTriples, List.mem_flatMap, List.mem_map] at h
  rcases h with ⟨w, hw, s, hs, k, hk, hkt⟩
  subst hkt
  exact ⟨hw, hs, hk⟩

theorem lookup_defaultPriorities (ss : List Site) (s : Site) (hs : s ∈ ss) :
    (defaultPriorities ss).lookup s.id = some 1 := by
  induction ss with
  | nil => cases hs
  | cons a t ih =>
    simp only [defaultPriorities, List.map_cons, List.lookup_cons]
    cases hk : s.id == a.id with
    | true => rfl
    | false =>
      rcases List.mem_cons.mp hs with rfl | hs2
      · simp at hk
      · exact ih hs2

theorem foldl_max_const {α : Type _} (t : List α) (c : ℚ) :
    (t.map fun _ => c).foldl max c = c := by
  induction t with
  | nil => rfl
  | cons a r ih => simpa [max_self] using ih

/-! ### Claim C4: the unfilled penalty decreases in priority -/

/-- Distance function used for concrete inputs; the theorems about the
objective quantify over arbitrary nonnegative distance functions. -/
def dzero : Coord → Coord → ℚ := fun _ _ => 0

/-- Concrete input with no workers and two sites, site 101 at priority 3 and
site 102 at priority 1 (the priorities of the source's own example usage). -/
def inpPrio : Input :=
  { workers := []
    sites := [⟨101, ["e"], (0, 0)⟩, ⟨102, ["e"], (0, 0)⟩]
    sitePriorities := some [(101, 3), (102, 1)] }

/-- C4: evaluation of the model at the failing input.  The penalty formula is
indeed `100 * (2 - normalizedPriority)` and strictly positive, but site 101
with normalized priority 1 (the highest) receives penalty 100 while site 102
with normalized priority 1/3 receives 500/3: the higher-priority site gets
the strictly smaller penalty, contradicting the claim and the comment in
solver.py lines 111-112 ("Higher priority sites have higher penalties"). -/
theorem unfilled_penalty_code_bug :
    buildModel dzero inpPrio = .ok ⟨[], [((101, "e"), 100), ((102, "e"), 500/3)], []⟩ ∧
    (nprOf inpPrio).lookup 101 = some 1 ∧
    (nprOf inpPrio).lookup 102 = some (1/3) ∧
    (1/3 : ℚ) < 1 ∧ (100 : ℚ) < 500/3 ∧ (0 : ℚ) < 100 ∧ (0 : ℚ) < 500/3 := by
  refine ⟨?_, ?_, ?_, by norm_num, by norm_num, by norm_num, by norm_num⟩
  · simp [buildModel, spOf, inpPrio, pyMax, mapE, keyLookup, nprOf, maxPOf, uPairs,
      xTriples, pairKeys, pairsOf, List.lookup, xEntry, uEntry]
    norm_num
  · simp [nprOf, spOf, inpPrio, maxPOf, pyMax, List.lookup]
  · simp [nprOf, spOf, inpPrio, maxPOf, pyMax, List.lookup]

/-! ### Claim C5: result extraction -/

/-- Concrete site list for C5: site 101 fillable, site 102 not. -/
def ssE : List Site := [⟨101, ["e"], (0, 0)⟩, ⟨102, ["p"], (0, 0)⟩]

/-- Concrete point for C5: worker 1 fills (101, e); (102, p) is unfilled. -/
def pE : Point :=
  ⟨fun key => key == (1, 101, "e"), fun uk => uk == (102, "p"), fun _ => false⟩

/-- C5 counterexample: at a feasible (indeed optimal-shaped) solution where
site 102 has no filled skill, the returned assignment dict still contains
site 102 mapped to the empty list — sites with no filled skill are not
omitted (solver.py line 184 seeds every site id), refuting the claim; the
unfilled list is only printed (line 196), never returned (line 198). -/
theorem extract_counterexample :
    Feasible wsB ssE pE ∧
    extractAssignments wsB ssE pE.xv = [(101, [1]), (102, [])] ∧
    pE.uv (102, "p") = true := by
  refine ⟨by decide, by decide, rfl⟩

/-- C5 amended: the returned dict maps every site id, in input order, to its
assigned workers (the empty list when no skill was filled), and the unfilled
diagnostic list contains exactly the unfilled keys whose variable is 1, but
it is only printed as a warning and is not part of the return value. -/
theorem extract_amended (ws : List Worker) (ss : List Site)
    (xv : ℕ × ℕ × String → Bool) (uv : ℕ × String → Bool) :
    (extractAssignments ws ss xv).map Prod.fst = ss.map Site.id ∧
    ∀ e, e ∈ extractUnfilled ss uv ↔ e ∈ unfilledKeys ss ∧ uv e = true := by
  constructor
  · simp [extractAssignments, List.map_map, Function.comp]
  · intro e
    simp [extractUnfilled, List.mem_filter]

/-! ### Claim C6: co-location coefficients are never positive -/

theorem normalizeCompat_lookup_nonneg (m : List ((ℕ × ℕ) × ℚ)) (k : ℕ × ℕ) (v : ℚ)
    (h : (normalizeCompat m).lookup k = some v) : 0 ≤ v := by
  have hv : v ∈ (normalizeCompat m).map (·.2) := lookup_mem_values _ k v h
  simp only [normalizeCompat, List.map_map] at hv
  rcases List.mem_map.mp hv with ⟨e0, he0, hveq⟩
  simp only [Function.comp] at hveq
  have hvals : e0.2 ∈ m.map (·.2) := List.mem_map_of_mem _ he0
  have hne : m.map (·.2) ≠ [] := List.ne_nil_of_mem hvals
  cases hpm : pyMax (m.map (·.2)) with
  | none =>
    cases hml : (m.map (·.2)) with
    | nil => exact absurd hml hne
    | cons a t => rw [hml] at hpm; simp [pyMax] at hpm
  | some mx =>
    cases hpn : pyMin (m.map (·.2)) with
    | none =>
      cases hml : (m.map (·.2)) with
      | nil => exact absurd hml hne
      | cons a t => rw [hml] at hpn; simp [pyMin] at hpn
    | some mn =>
      rw [hpm, hpn] at hveq
      simp only [Option.getD_some] at hveq
      have hlo : mn ≤ e0.2 := pyMin_le _ mn hpn e0.2 hvals
      have hhi : e0.2 ≤ mx := pyMax_ge _ mx hpm e0.2 hvals
      have hrng : (0 : ℚ) < if mx ≠ mn then mx - mn else 1 := by
        by_cases hmx : mx ≠ mn
        · rw [if_pos hmx]
          have hle : mn ≤ mx := le_trans hlo hhi
          rcases lt_or_eq_of_le hle with hlt | heq2
          · linarith
          · exact absurd heq2.symm hmx
        · rw [if_neg hmx]
          norm_num
      rw [← hveq]
      apply div_nonneg _ (le_of_lt hrng)
      linarith

theorem zCoeff_nonpos (cw : ℚ) (hcw : 0 ≤ cw) (m : List ((ℕ × ℕ) × ℚ)) (a b : ℕ) :
    zCoeff cw (normalizeCompat m) a b ≤ 0 := by
  unfold zCoeff
  cases hl : (normalizeCompat m).lookup (a, b) with
  | none => exact le_refl 0
  | some v =>
    have hv := normalizeCompat_lookup_nonneg m (a, b) v hl
    have : 0 ≤ cw * v := mul_nonneg hcw hv
    simp only [neg_mul]
    linarith

/-- Concrete input for C6: three workers, one site; pair (1,2) has raw
compatibility 4/5, pair (1,3) has raw compatibility -1/2, pair (2,3) is
absent. -/
def inpC : Input :=
  { workers := [⟨1, [("e", 1)], (0, 0)⟩, ⟨2, [("e", 1)], (0, 0)⟩, ⟨3, [("e", 1)], (0, 0)⟩]
    sites := [⟨300, ["e"], (0, 0)⟩]
    workerCompat := some [((1, 2), 4/5), ((1, 3), -1/2)] }

/-- C6 counterexample: pair (1,3) has raw compatibility -1/2 < 0, yet its
co-location objective coefficient (the value buildModel's zC carries for key
(1,3,300)) is 0, not positive: min-max normalization maps the most negative
raw score to 0, so co-locating an incompatible pair never increases the total
cost, refuting the claim's "penalizes" direction. -/
theorem colocation_coefficient_counterexample :
    (wcOf inpC).lookup (1, 3) = some (-1/2) ∧ (-1/2 : ℚ) < 0 ∧
    (1, 3, 300) ∈ pairKeys inpC.workers inpC.sites ∧
    zCoeff inpC.compatW (ncOf inpC) 1 3 = 0 ∧
    ¬ ((0 : ℚ) > 0) := by
  have hwc : wcOf inpC =
      [((1, 2), 4/5), ((1, 3), -1/2), ((2, 1), 4/5), ((3, 1), -1/2)] := by
    simp [wcOf, inpC, symmetrize, symStep, List.lookup, prodBeq]
  have hnc : ncOf inpC = [((1, 2), 1), ((1, 3), 0), ((2, 1), 1), ((3, 1), 0)] := by
    rw [ncOf, hwc]
    simp only [normalizeCompat, List.map_cons, List.map_nil, pyMax, pyMin,
      List.foldl_cons, List.foldl_nil, Option.getD_some]
    norm_num [max_def, min_def]
  refine ⟨?_, by norm_num, by decide, ?_, by norm_num⟩
  · rw [hwc]
    simp [List.lookup, prodBeq]
  · rw [hnc]
    simp [zCoeff, List.lookup, prodBeq, inpC]

/-- C6 amended: the coefficient of a co-location indicator equals
`-compatibility_weight * normalizedCompatibility` for every ordered pair
present in the normalized dict (and 0 for absent pairs), and since the
min-max-normalized score is nonnegative the coefficient is never positive:
positive-compatibility pairs get a cost reduction, but negative-compatibility
pairs are not penalized — their coefficient is still at most 0. -/
theorem colocation_coefficient_amended (cw : ℚ) (hcw : 0 ≤ cw)
    (m : List ((ℕ × ℕ) × ℚ)) (a b : ℕ) :
    zCoeff cw (normalizeCompat m) a b ≤ 0 ∧
    ∀ v, (normalizeCompat m).lookup (a, b) = some v →
      zCoeff cw (normalizeCompat m) a b = -cw * v ∧ 0 ≤ v := by
  refine ⟨zCoeff_nonpos cw hcw m a b, ?_⟩
  intro v hv
  exact ⟨by simp [zCoeff, hv], normalizeCompat_lookup_nonneg m (a, b) v hv⟩

theorem colocation_coefficient_amended_witness :
    zCoeff (1/2) (normalizeCompat [((1, 2), (1 : ℚ))]) 1 2 ≤ 0 ∧
    ∀ v, (normalizeCompat [((1, 2), (1 : ℚ))]).lookup (1, 2) = some v →
      zCoeff (1/2) (normalizeCompat [((1, 2), (1 : ℚ))]) 1 2 = -(1/2) * v ∧ 0 ≤ v :=
  colocation_coefficient_amended (1/2) (by norm_num) [((1, 2), (1 : ℚ))] 1 2

/-! ### Claims C7 and C8: missing validation and partial priority maps -/

/-- Completion marker: true when the computation ran to completion instead of
raising. -/
def isOkE {α : Type _} : Except String α → Bool
  | .ok _ => true
  | .error _ => false

/-- Concrete input for C7: empty worker list, one site. -/
def inpW : Input :=
  { workers := []
    sites := [⟨101, ["e"], (0, 0)⟩] }

/-- C7 counterexample: on an input with an empty worker list the function
raises no input-validation error; it proceeds to build the model — here the
unfilled variable for (101, e) with its penalty — and completes.  No
validation of empty lists, weight ranges or finiteness exists anywhere in
solver.py. -/
theorem no_validation_counterexample :
    buildModel dzero inpW = .ok ⟨[], [((101, "e"), 100)], []⟩ := by
  simp [buildModel, spOf, inpW, pyMax, mapE, keyLookup, nprOf, maxPOf, uPairs,
    xTriples, pairKeys, pairsOf, List.lookup, xEntry, uEntry, defaultPriorities]
  norm_num

theorem lookup_nprOf (inp : Input) (k : ℕ) :
    (nprOf inp).lookup k = ((spOf inp).lookup k).map (· / maxPOf inp) := by
  rw [nprOf]
  exact lookup_map_value (spOf inp) (fun x => x / maxPOf inp) k

/-- C7 amended: the function performs no input validation at all.  With an
empty worker list (and any weights whatever) it builds the model normally:
no decision variables, one unfilled variable per required slot, no pair
variables.  The only pre-model exception is the ValueError Python's max
raises on an empty priority dict, which happens exactly when the site list is
empty and no priorities were supplied — a crash, not a validation error. -/
theorem no_validation_amended (dist : Coord → Coord → ℚ) (inp : Input)
    (hw : inp.workers = []) (hp : inp.sitePriorities = none) :
    (inp.sites ≠ [] → ∃ m, buildModel dist inp = .ok m ∧
      m.xC = [] ∧ m.uC.map Prod.fst = unfilledKeys inp.sites ∧ m.zC = []) ∧
    (inp.sites = [] → buildModel dist inp = .error "ValueError") := by
  constructor
  · intro hss
    have hvals : (spOf inp).map (fun x => x.2) = inp.sites.map (fun _ => (1 : ℚ)) := by
      simp only [spOf, hp, defaultPriorities, List.map_map]
      rfl
    have hpm : pyMax ((spOf inp).map (fun x => x.2)) = some 1 := by
      rcases List.exists_cons_of_ne_nil hss with ⟨s0, rest, hcons⟩
      rw [hvals, hcons, List.map_cons, pyMax, foldl_max_const]
    have hlook : ∀ s ∈ inp.sites, (nprOf inp).lookup s.id = some (1 / maxPOf inp) := by
      intro s hs
      rw [lookup_nprOf]
      have : (spOf inp).lookup s.id = some 1 := by
        have hd : spOf inp = defaultPriorities inp.sites := by simp [spOf, hp]
        rw [hd]
        exact lookup_defaultPriorities inp.sites s hs
      rw [this]
      rfl
    have hxe : mapE (xEntry dist inp) (xTriples inp.workers inp.sites) = .ok [] := by
      rw [hw]
      rfl
    have hue : mapE (uEntry inp) (uPairs inp.sites) =
        .ok ((uPairs inp.sites).map fun t => ((t.1.id, t.2), 100 * (2 - 1 / maxPOf inp))) := by
      apply mapE_ok_of_forall
      intro t ht
      have hmem := uPairs_mem inp.sites t ht
      rw [uEntry, keyLookup_ok (nprOf inp) t.1.id _ (hlook t.1 hmem.1)]
    have hzc : pairKeys inp.workers inp.sites = [] := by
      rw [hw]
      rfl
    refine ⟨⟨[], (uPairs inp.sites).map fun t => ((t.1.id, t.2), 100 * (2 - 1 / maxPOf inp)),
      []⟩, ?_, rfl, ?_, rfl⟩
    · rw [buildModel, hpm]
      have hone : ¬ (1 : ℚ) = 0 := by norm_num
      simp only [hone, if_false, hxe, hue, hzc, List.map_nil]
    · simp [unfilledKeys, List.map_map, Function.comp]
  · intro hss
    rw [buildModel]
    have : (spOf inp).map (fun x => x.2) = [] := by
      simp [spOf, hp, hss, defaultPriorities]
    rw [this]
    rfl

theorem no_validation_amended_witness :
    (inpW.sites ≠ [] → ∃ m, buildModel dzero inpW = .ok m ∧
      m.xC = [] ∧ m.uC.map Prod.fst = unfilledKeys inpW.sites ∧ m.zC = []) ∧
    (inpW.sites = [] → buildModel dzero inpW = .error "ValueError") :=
  no_validation_amended dzero inpW rfl rfl

/-- Concrete input for C8: sites 101 and 102, but a priority supplied only
for 101. -/
def inpMiss : Input :=
  { workers := []
    sites := [⟨101, ["e"], (0, 0)⟩, ⟨102, ["e"], (0, 0)⟩]
    sitePriorities := some [(101, 3)] }

/-- C8 counterexample: with a priority map omitting site 102, the build does
not default the missing priority to 1 and complete — it raises KeyError at
the `normalized_priorities[s_id]` lookup (solver.py line 113). -/
theorem partial_priorities_counterexample :
    buildModel dzero inpMiss = .error "KeyError" := by
  simp [buildModel, spOf, inpMiss, pyMax, mapE, keyLookup, nprOf, maxPOf, uPairs,
    xTriples, pairKeys, pairsOf, List.lookup, xEntry, uEntry]

/-- C8 amended: when a priority map is supplied that omits a site (with at
least one required skill) present in the site list, the solve does not treat
the missing entry as priority 1: it raises KeyError during objective
construction and never completes.  The default priority 1 applies only when
the whole map is omitted. -/
theorem partial_priorities_amended (dist : Coord → Coord → ℚ) (inp : Input)
    (sp : List (ℕ × ℚ)) (hsp : inp.sitePriorities = some sp)
    (s : Site) (hs : s ∈ inp.sites) (hk : s.required ≠ [])
    (hmiss : sp.lookup s.id = none) :
    isOkE (buildModel dist inp) = false := by
  cases hbm : buildModel dist inp with
  | error e => rfl
  | ok m =>
    exfalso
    obtain ⟨hx, hu, hz⟩ := buildModel_ok_elim dist inp m hbm
    rcases List.exists_cons_of_ne_nil hk with ⟨k0, krest, hkc⟩
    have hmem : (s, k0) ∈ uPairs inp.sites :=
      uPairs_mem_of inp.sites s k0 hs (by rw [hkc]; exact List.mem_cons_self _ _)
    rcases mapE_ok_mem (uEntry inp) (uPairs inp.sites) m.uC hu (s, k0) hmem with ⟨b, hb⟩
    have hnone : (nprOf inp).lookup s.id = none := by
      rw [lookup_nprOf]
      have hd : spOf inp = sp := by simp [spOf, hsp]
      rw [hd, hmiss]
      rfl
    rw [uEntry] at hb
    simp only [keyLookup, hnone] at hb
    cases hb

theorem partial_priorities_amended_witness :
    isOkE (buildModel dzero inpMiss) = false :=
  partial_priorities_amended dzero inpMiss [(101, 3)] rfl ⟨102, ["e"], (0, 0)⟩
    (by decide) (by decide) (by decide)

/-! ### Claim C2: worker exclusivity and the assignment map -/

theorem contains_iff_mem {α : Type _} [BEq α] [LawfulBEq α] (l : List α) (a : α) :
    l.contains a = true ↔ a ∈ l :=
  List.elem_iff

theorem flatMap_congr {α β : Type _} (l : List α) (f g : α → List β)
    (h : ∀ a ∈ l, f a = g a) : l.flatMap f = l.flatMap g := by
  induction l with
  | nil => rfl
  | cons a t ih =>
    simp only [List.flatMap_cons, h a (List.mem_cons_self _ _),
      ih fun b hb => h b (List.mem_cons_of_mem _ hb)]

theorem mem_xKeys (ws : List Worker) (ss : List Site) (key : ℕ × ℕ × String) :
    key ∈ xKeys ws ss ↔
      ∃ w, w ∈ ws ∧ ∃ s, s ∈ ss ∧ ∃ k, k ∈ eligSkills w s ∧ key = (w.id, s.id, k) := by
  simp only [xKeys, List.mem_map, xTriples, List.mem_flatMap]
  constructor
  · rintro ⟨t, ⟨w, hw, s, hs, k, hk, rfl⟩, rfl⟩
    exact ⟨w, hw, s, hs, k, hk, rfl⟩
  · rintro ⟨w, hw, s, hs, k, hk, rfl⟩
    exact ⟨(w, s, k), ⟨w, hw, s, hs, k, hk, rfl⟩, rfl⟩

theorem contains_xKeys (ws : List Worker) (ss : List Site)
    (hwnd : (ws.map Worker.id).Nodup) (hsnd : (ss.map Site.id).Nodup)
    (w : Worker) (s : Site) (k : String) (hw : w ∈ ws) (hs : s ∈ ss) (hk : k ∈ s.required) :
    (xKeys ws ss).contains (w.id, s.id, k) = (w.skills.any fun e => e.1 == k) := by
  rw [Bool.eq_iff_iff, contains_iff_mem, mem_xKeys]
  constructor
  · rintro ⟨w2, hw2, s2, hs2, k2, hk2, hkey⟩
    simp only [Prod.mk.injEq] at hkey
    have hweq : w2 = w :=
      List.inj_on_of_nodup_map hwnd hw2 hw hkey.1.symm
    have hkeq : k2 = k := hkey.2.2.symm
    rw [← hweq]
    subst hkeq
    exact (List.mem_filter.mp hk2).2
  · intro hany
    exact ⟨w, hw, s, hs, k, List.mem_filter.mpr ⟨hk, hany⟩, rfl⟩

theorem countP_assigned_le_one (ws : List Worker) (ss : List Site)
    (hwnd : (ws.map Worker.id).Nodup) (hsnd : (ss.map Site.id).Nodup)
    (p : Point) (hfeas : Feasible ws ss p) (wid : ℕ) :
    (xKeys ws ss).countP (fun key => key.1 == wid && p.xv key) ≤ 1 := by
  rw [xKeys, List.countP_map, xTriples, countP_flatMap]
  apply sum_le_of_unique ws _ (fun w => w.id == wid) 1 _ (countP_le_one_of_nodup_map ws Worker.id wid hwnd)
  intro w hw
  by_cases hid : (w.id == wid) = true
  · rw [if_pos hid]
    have hid2 : w.id = wid := by simpa using hid
    have hcg : ((ss.flatMap fun s => (eligSkills w s).map fun k => (w, s, k)).countP
        ((fun key : ℕ × ℕ × String => key.1 == wid && p.xv key) ∘
          fun t => (t.1.id, t.2.1.id, t.2.2)))
        = ((ss.flatMap fun s => (eligSkills w s).map fun k => (w, s, k)).countP
            fun t => p.xv (t.1.id, t.2.1.id, t.2.2)) := by
      apply List.countP_congr
      intro t ht
      simp only [List.mem_flatMap, List.mem_map] at ht
      rcases ht with ⟨s, hs, k, hk, rfl⟩
      simp [Function.comp, hid2]
    rw [hcg]
    have hlist : ((ss.flatMap fun s => (eligSkills w s).map fun k => (w, s, k)).countP
        fun t => p.xv (t.1.id, t.2.1.id, t.2.2))
        = exclSum ws ss wid p.xv := by
      rw [exclSum]
      have hmap : (ss.flatMap fun s =>
          (s.required.filter fun k => (xKeys ws ss).contains (wid, s.id, k)).map fun k =>
            (wid, s.id, k))
          = ss.flatMap fun s => (eligSkills w s).map fun k => (w.id, s.id, k) := by
        apply flatMap_congr
        intro s hs
        rw [eligSkills]
        have hf : (s.required.filter fun k => (xKeys ws ss).contains (wid, s.id, k))
            = s.required.filter fun k => w.skills.any fun e => e.1 == k := by
          apply List.filter_congr
          intro k hk
          rw [← hid2]
          exact contains_xKeys ws ss hwnd hsnd w s k hw hs hk
        rw [hf, ← hid2]
      rw [hmap]
      have hcnt : ∀ L : List String, ∀ s : Site,
          ((L.map fun k => (w.id, s.id, k)).countP p.xv)
          = (L.map fun k => (w, s, k)).countP fun t => p.xv (t.1.id, t.2.1.id, t.2.2) := by
        intro L s
        rw [List.countP_map, List.countP_map]
        rfl
      rw [countP_flatMap, countP_flatMap]
      apply congrArg
      apply List.map_congr_left
      intro s _
      exact (hcnt (eligSkills w s) s).symm
    rw [hlist]
    rw [← hid2] at *
    exact hfeas.1 w hw
  · rw [if_neg hid]
    apply Nat.le_of_eq
    apply List.countP_eq_zero.mpr
    intro t ht
    simp only [List.mem_flatMap, List.mem_map] at ht
    rcases ht with ⟨s, hs, k, hk, rfl⟩
    simp only [Function.comp, Bool.and_eq_true]
    rintro ⟨h1, -⟩
    exact hid h1

/-- C2: in every feasible point, every worker's exclusivity sum (solver.py
lines 136-141) is at most 1, and consequently in the extracted assignment
dict no worker id occurs more than once over all sites' lists — it appears
in at most one site's list and never twice in a single list. -/
theorem worker_exclusivity (ws : List Worker) (ss : List Site)
    (hwnd : (ws.map Worker.id).Nodup) (hsnd : (ss.map Site.id).Nodup)
    (p : Point) (hfeas : Feasible ws ss p) :
    (∀ w ∈ ws, exclSum ws ss w.id p.xv ≤ 1) ∧
    (∀ wid : ℕ, ((extractAssignments ws ss p.xv).flatMap Prod.snd).count wid ≤ 1) := by
  refine ⟨hfeas.1, ?_⟩
  intro wid
  rw [extractAssignments, List.flatMap_map]
  rw [List.count_eq_countP, countP_flatMap]
  have hstep : ∀ s ∈ ss,
      ((((xKeys ws ss).filter fun key => key.2.1 == s.id && p.xv key).map (·.1)).countP
        (· == wid))
      = (xKeys ws ss).countP fun key =>
          (key.1 == wid && p.xv key) && (key.2.1 == s.id) := by
    intro s _
    rw [List.countP_map, List.countP_filter]
    apply List.countP_congr
    intro key _
    simp only [Function.comp, Bool.and_eq_true, beq_iff_eq]
    tauto
  have hmcg : (ss.map fun s =>
      ((((xKeys ws ss).filter fun key => key.2.1 == s.id && p.xv key).map (·.1)).countP
        (· == wid)))
      = ss.map fun s => (xKeys ws ss).countP fun key =>
          (key.1 == wid && p.xv key) && (key.2.1 == s.id) :=
    List.map_congr_left fun s hs => hstep s hs
  calc ((ss.map fun s =>
        ((((xKeys ws ss).filter fun key => key.2.1 == s.id && p.xv key).map (·.1)).countP
          (· == wid)))).sum
      = (ss.map fun s => (xKeys ws ss).countP fun key =>
          (key.1 == wid && p.xv key) && (key.2.1 == s.id)).sum := by rw [hmcg]
    _ ≤ (xKeys ws ss).countP fun key => key.1 == wid && p.xv key := by
        apply sum_countP_le
        intro key _ _
        have hcg2 : ss.countP (fun s => key.2.1 == s.id)
            = ss.countP (fun s => s.id == key.2.1) := by
          apply List.countP_congr
          intro s _
          simp only [beq_iff_eq]
          exact eq_comm
        rw [hcg2]
        exact countP_le_one_of_nodup_map ss Site.id key.2.1 hsnd
    _ ≤ 1 := countP_assigned_le_one ws ss hwnd hsnd p hfeas wid

theorem worker_exclusivity_witness :
    (∀ w ∈ wsB, exclSum wsB ssE w.id pE.xv ≤ 1) ∧
    (∀ wid : ℕ, ((extractAssignments wsB ssE pE.xv).flatMap Prod.snd).count wid ≤ 1) :=
  worker_exclusivity wsB ssE (by decide) (by decide) pE (by decide)

/-! ### Flip lemmas for point updates (claim C10) -/

theorem countP_flip_true {α : Type _} [BEq α] [LawfulBEq α] (L : List α) (f : α → Bool)
    (key : α) (hk : f key = false) :
    L.countP (fun a => a == key || f a) = L.countP f + L.count key := by
  induction L with
  | nil => rfl
  | cons a t ih =>
    by_cases hak : a = key
    · subst hak
      simp [List.countP_cons, List.count_cons, hk] at ih ⊢
      omega
    · have hb : (a == key) = false := by simpa using hak
      simp [List.countP_cons, List.count_cons, hb] at ih ⊢
      omega

theorem countP_flip_false {α : Type _} [BEq α] [LawfulBEq α] (L : List α) (f : α → Bool)
    (key : α) (hk : f key = true) :
    L.countP f = L.countP (fun a => !(a == key) && f a) + L.count key := by
  induction L with
  | nil => rfl
  | cons a t ih =>
    by_cases hak : a = key
    · subst hak
      simp [List.countP_cons, List.count_cons, hk] at ih ⊢
      omega
    · have hb : (a == key) = false := by simpa using hak
      simp [List.countP_cons, List.count_cons, hb] at ih ⊢
      omega

theorem sum_coeff_flip_true {κ : Type _} [BEq κ] [LawfulBEq κ] (L : List (κ × ℚ))
    (f : κ → Bool) (key : κ) (c : ℚ) (hf : f key = false)
    (hcount : L.countP (fun e => e.1 == key) = 1)
    (hc : ∀ e ∈ L, e.1 = key → e.2 = c) :
    (L.map fun e => e.2 * b2q (e.1 == key || f e.1)).sum
      = (L.map fun e => e.2 * b2q (f e.1)).sum + c := by
  induction L with
  | nil => simp at hcount
  | cons e t ih =>
    rw [List.map_cons, List.map_cons, List.sum_cons, List.sum_cons]
    by_cases hek : e.1 = key
    · have hekb : (e.1 == key) = true := by simpa using hek
      have hce : e.2 = c := hc e (List.mem_cons_self _ _) hek
      have htz : t.countP (fun e2 => e2.1 == key) = 0 := by
        have hstep : (e :: t).countP (fun e2 => e2.1 == key)
            = t.countP (fun e2 => e2.1 == key) + 1 :=
          List.countP_cons_of_pos _ _ hekb
        rw [hstep] at hcount
        omega
      have htail : (t.map fun e2 => e2.2 * b2q (e2.1 == key || f e2.1))
          = t.map fun e2 => e2.2 * b2q (f e2.1) := by
        apply List.map_congr_left
        intro e2 he2
        have hne := List.countP_eq_zero.mp htz e2 he2
        simp only [Bool.not_eq_true] at hne
        rw [hne]
        simp
      rw [htail, hekb, hek, hce, hf]
      simp [b2q]
      ring
    · have hekb : (e.1 == key) = false := by simpa using hek
      have hcount2 : t.countP (fun e2 => e2.1 == key) = 1 := by
        have hstep : (e :: t).countP (fun e2 => e2.1 == key)
            = t.countP (fun e2 => e2.1 == key) :=
          List.countP_cons_of_neg _ _ (by simp [hekb])
        rw [hstep] at hcount
        exact hcount
      rw [hekb]
      simp only [Bool.false_or]
      rw [ih hcount2 fun e2 he2 => hc e2 (List.mem_cons_of_mem _ he2)]
      ring

theorem sum_coeff_flip_false {κ : Type _} [BEq κ] [LawfulBEq κ] (L : List (κ × ℚ))
    (f : κ → Bool) (key : κ) (c : ℚ) (hf : f key = true)
    (hcount : L.countP (fun e => e.1 == key) = 1)
    (hc : ∀ e ∈ L, e.1 = key → e.2 = c) :
    (L.map fun e => e.2 * b2q (!(e.1 == key) && f e.1)).sum
      = (L.map fun e => e.2 * b2q (f e.1)).sum - c := by
  induction L with
  | nil => simp at hcount
  | cons e t ih =>
    rw [List.map_cons, List.map_cons, List.sum_cons, List.sum_cons]
    by_cases hek : e.1 = key
    · have hekb : (e.1 == key) = true := by simpa using hek
      have hce : e.2 = c := hc e (List.mem_cons_self _ _) hek
      have htz : t.countP (fun e2 => e2.1 == key) = 0 := by
        have hstep : (e :: t).countP (fun e2 => e2.1 == key)
            = t.countP (fun e2 => e2.1 == key) + 1 :=
          List.countP_cons_of_pos _ _ hekb
        rw [hstep] at hcount
        omega
      have htail : (t.map fun e2 => e2.2 * b2q (!(e2.1 == key) && f e2.1))
          = t.map fun e2 => e2.2 * b2q (f e2.1) := by
        apply List.map_congr_left
        intro e2 he2
        have hne := List.countP_eq_zero.mp htz e2 he2
        simp only [Bool.not_eq_true] at hne
        rw [hne]
        simp
      rw [htail, hekb, hek, hce, hf]
      simp [b2q]
    · have hekb : (e.1 == key) = false := by simpa using hek
      have hcount2 : t.countP (fun e2 => e2.1 == key) = 1 := by
        have hstep : (e :: t).countP (fun e2 => e2.1 == key)
            = t.countP (fun e2 => e2.1 == key) :=
          List.countP_cons_of_neg _ _ (by simp [hekb])
        rw [hstep] at hcount
        exact hcount
      rw [hekb]
      simp only [Bool.not_false, Bool.true_and]
      rw [ih hcount2 fun e2 he2 => hc e2 (List.mem_cons_of_mem _ he2)]
      ring

theorem sum_coeff_mono {κ : Type _} (L : List (κ × ℚ)) (f g : κ → Bool)
    (hneg : ∀ e ∈ L, e.2 ≤ 0) (hmono : ∀ k2, f k2 = true → g k2 = true) :
    (L.map fun e => e.2 * b2q (g e.1)).sum ≤ (L.map fun e => e.2 * b2q (f e.1)).sum := by
  apply List.sum_le_sum
  intro e he
  cases hfe : f e.1 with
  | true =>
    rw [hmono e.1 hfe]
  | false =>
    have hz : e.2 * b2q false = 0 := by simp [b2q]
    rw [hz]
    have hb : 0 ≤ b2q (g e.1) := by cases g e.1 <;> simp [b2q]
    exact mul_nonpos_of_nonpos_of_nonneg (hneg e he) hb

/-! ### Bounds on the objective coefficients (claim C10) -/

theorem siteReq_eq (ss : List Site) (hsnd : (ss.map Site.id).Nodup) (s : Site) (hs : s ∈ ss) :
    siteReq ss s.id = s.required := by
  rw [siteReq]
  cases hf : ss.find? (fun s2 => s2.id == s.id) with
  | none =>
    exfalso
    have := List.find?_eq_none.mp hf s hs
    simp at this
  | some s2 =>
    have hp := List.find?_some hf
    have hm := List.mem_of_find?_eq_some hf
    have hse : s2 = s := List.inj_on_of_nodup_map hsnd hm hs (by simpa using hp)
    rw [hse]

theorem inner_step_le (dist : Coord → Coord → ℚ) (w2 : Worker) (ss : List Site) :
    ∀ init : ℚ, init ≤ ss.foldl (fun a s2 => max a (dist w2.loc s2.loc)) init := by
  induction ss with
  | nil => intro init; exact le_refl _
  | cons b t ih =>
    intro init
    exact le_trans (le_max_left init (dist w2.loc b.loc)) (ih _)

theorem inner_mem_ge (dist : Coord → Coord → ℚ) (w2 : Worker) (ss : List Site)
    (s : Site) (hs : s ∈ ss) :
    ∀ init : ℚ, dist w2.loc s.loc ≤ ss.foldl (fun a s2 => max a (dist w2.loc s2.loc)) init := by
  induction ss with
  | nil => cases hs
  | cons b t ih =>
    intro init
    rcases List.mem_cons.mp hs with rfl | hs2
    · exact le_trans (le_max_right init (dist w2.loc s.loc)) (inner_step_le dist w2 t _)
    · exact ih hs2 _

theorem maxDistance_ge (dist : Coord → Coord → ℚ) (ws : List Worker) (ss : List Site)
    (w : Worker) (s : Site) (hw : w ∈ ws) (hs : s ∈ ss) :
    dist w.loc s.loc ≤ maxDistance dist ws ss := by
  rw [maxDistance]
  have main : ∀ (t : List Worker) (init : ℚ), w ∈ t →
      dist w.loc s.loc ≤
        t.foldl (fun acc w2 => ss.foldl (fun acc2 s2 => max acc2 (dist w2.loc s2.loc)) acc) init := by
    intro t
    induction t with
    | nil => intro init hmem; cases hmem
    | cons a r ih =>
      intro init hmem
      rcases List.mem_cons.mp hmem with rfl | hmem2
      · calc dist w.loc s.loc
            ≤ ss.foldl (fun acc2 s2 => max acc2 (dist w.loc s2.loc)) init :=
              inner_mem_ge dist w ss s hs init
          _ ≤ r.foldl (fun acc w2 => ss.foldl (fun acc2 s2 => max acc2 (dist w2.loc s2.loc)) acc)
              (ss.foldl (fun acc2 s2 => max acc2 (dist w.loc s2.loc)) init) := by
              apply foldl_step_le
              intro acc w2
              exact inner_step_le dist w2 ss acc
          _ = (w :: r).foldl
              (fun acc w2 => ss.foldl (fun acc2 s2 => max acc2 (dist w2.loc s2.loc)) acc) init := by
              rw [List.foldl_cons]
      · calc dist w.loc s.loc
            ≤ r.foldl (fun acc w2 => ss.foldl (fun acc2 s2 => max acc2 (dist w2.loc s2.loc)) acc)
              (ss.foldl (fun acc2 s2 => max acc2 (dist a.loc s2.loc)) init) := ih _ hmem2
          _ = (a :: r).foldl
              (fun acc w2 => ss.foldl (fun acc2 s2 => max acc2 (dist w2.loc s2.loc)) acc) init := by
              rw [List.foldl_cons]
  exact main ws 0 hw

theorem normalizedDistance_bounds (dist : Coord → Coord → ℚ) (ws : List Worker)
    (ss : List Site) (w : Worker) (s : Site) (hd : ∀ a b, 0 ≤ dist a b)
    (hw : w ∈ ws) (hs : s ∈ ss) :
    0 ≤ normalizedDistance dist ws ss w s ∧ normalizedDistance dist ws ss w s ≤ 1 := by
  unfold normalizedDistance
  by_cases h : 0 < maxDistance dist ws ss
  · rw [if_pos h]
    exact ⟨div_nonneg (hd _ _) (le_of_lt h),
      (div_le_one h).mpr (maxDistance_ge dist ws ss w s hw hs)⟩
  · rw [if_neg h]
    norm_num

theorem profOf_bounds (w : Worker) (hp : ∀ e ∈ w.skills, 0 ≤ e.2 ∧ e.2 ≤ 1) (k : String) :
    0 ≤ profOf w k ∧ profOf w k ≤ 1 := by
  rw [profOf]
  cases hl : w.skills.lookup k with
  | none => norm_num
  | some v =>
    have hv : v ∈ w.skills.map (·.2) := lookup_mem_values _ _ _ hl
    rcases List.mem_map.mp hv with ⟨e, he, rfl⟩
    simpa using hp e he

theorem nprOf_getD_bounds (inp : Input) (s : Site) (pv : ℚ)
    (hl : (spOf inp).lookup s.id = some pv) (hpv : 0 < pv) :
    0 < ((nprOf inp).lookup s.id).getD 0 ∧ ((nprOf inp).lookup s.id).getD 0 ≤ 1 := by
  rw [lookup_nprOf, hl]
  simp only [Option.map_some', Option.getD_some]
  have hvmem : pv ∈ (spOf inp).map (·.2) := lookup_mem_values _ _ _ hl
  have hne : (spOf inp).map (·.2) ≠ [] := List.ne_nil_of_mem hvmem
  cases hml : (spOf inp).map (·.2) with
  | nil => exact absurd hml hne
  | cons a t =>
    have hpm : pyMax ((spOf inp).map (·.2)) = some (t.foldl max a) := by rw [hml]; rfl
    have hmx : maxPOf inp = t.foldl max a := by rw [maxPOf, hpm]; rfl
    rw [hml] at hvmem
    have hple : pv ≤ t.foldl max a := pyMax_ge (a :: t) _ (by rw [pyMax]) pv hvmem
    have hmp : (0 : ℚ) < t.foldl max a := lt_of_lt_of_le hpv hple
    rw [hmx]
    exact ⟨div_pos hpv hmp, (div_le_one hmp).mpr hple⟩

theorem assignCost_le_20 (dw sw nd prof np : ℚ)
    (hdw : 0 ≤ dw) (hdw1 : dw ≤ 1) (hsw : 0 ≤ sw) (hsw1 : sw ≤ 1)
    (hnd : 0 ≤ nd) (hnd1 : nd ≤ 1) (hp0 : 0 ≤ prof) (hp1 : prof ≤ 1)
    (hnp : 0 < np) (hnp1 : np ≤ 1) :
    assignCost dw sw nd prof np ≤ 20 := by
  rw [assignCost]
  have hden : (0 : ℚ) < np + 1/10 := by linarith
  have h1 : 1 / (np + 1/10) ≤ 10 := by
    rw [div_le_iff hden]
    linarith
  have h1p : 0 ≤ 1 / (np + 1/10) := le_of_lt (one_div_pos.mpr hden)
  have h2a : dw * nd ≤ 1 := by nlinarith
  have h2b : sw * (1 - prof) ≤ 1 := by nlinarith
  have h2nn : 0 ≤ dw * nd + sw * (1 - prof) := by nlinarith
  calc (1 / (np + 1/10)) * (dw * nd + sw * (1 - prof))
      ≤ 10 * 2 := by
        apply mul_le_mul h1 (by linarith) h2nn (by norm_num)
    _ = 20 := by norm_num

theorem uCoeff_ge_100 (inp : Input) (s : Site)
    (hnp1 : ((nprOf inp).lookup s.id).getD 0 ≤ 1) : 100 ≤ uCoeff inp s := by
  rw [uCoeff]
  linarith

theorem buildModel_lists (dist : Coord → Coord → ℚ) (inp : Input) (m : Model)
    (hbuild : buildModel dist inp = .ok m)
    (hcov : ∀ s ∈ inp.sites, ∃ pv, (spOf inp).lookup s.id = some pv) :
    m.xC = (xTriples inp.workers inp.sites).map (fun t =>
      ((t.1.id, t.2.1.id, t.2.2), xCoeff dist inp t.1 t.2.1 t.2.2)) ∧
    m.uC = (uPairs inp.sites).map (fun t => ((t.1.id, t.2), uCoeff inp t.1)) ∧
    m.zC = (pairKeys inp.workers inp.sites).map fun pk =>
      (pk, zCoeff inp.compatW (ncOf inp) pk.1 pk.2.1) := by
  obtain ⟨hx, hu, hz⟩ := buildModel_ok_elim dist inp m hbuild
  have hnpr : ∀ s2 ∈ inp.sites, ∃ np, (nprOf inp).lookup s2.id = some np := by
    intro s2 hs2
    rcases hcov s2 hs2 with ⟨pv, hl⟩
    exact ⟨pv / maxPOf inp, by rw [lookup_nprOf, hl]; rfl⟩
  have hxe : ∀ t ∈ xTriples inp.workers inp.sites,
      xEntry dist inp t = .ok ((t.1.id, t.2.1.id, t.2.2), xCoeff dist inp t.1 t.2.1 t.2.2) := by
    intro t ht
    rcases hnpr t.2.1 (xTriples_mem _ _ t ht).2.1 with ⟨np, hl⟩
    rw [xEntry, keyLookup_ok _ _ _ hl, xCoeff, hl]
    rfl
  have hue : ∀ t ∈ uPairs inp.sites,
      uEntry inp t = .ok ((t.1.id, t.2), uCoeff inp t.1) := by
    intro t ht
    rcases hnpr t.1 (uPairs_mem _ t ht).1 with ⟨np, hl⟩
    rw [uEntry, keyLookup_ok _ _ _ hl, uCoeff, hl]
    rfl
  have hx2 := mapE_ok_of_forall _ _ _ hxe
  have hu2 := mapE_ok_of_forall _ _ _ hue
  rw [hx2] at hx
  rw [hu2] at hu
  exact ⟨(Except.ok.inj hx).symm, (Except.ok.inj hu).symm, hz⟩

theorem atSite_le_excl (ws : List Worker) (ss : List Site) (hsnd : (ss.map Site.id).Nodup)
    (wid : ℕ) (s : Site) (hs : s ∈ ss) (xv : ℕ × ℕ × String → Bool) :
    atSiteSum ws ss wid s.id xv ≤ exclSum ws ss wid xv := by
  rw [exclSum, countP_flatMap]
  have helt : atSiteSum ws ss wid s.id xv
      = ((s.required.filter fun k2 => (xKeys ws ss).contains (wid, s.id, k2)).map
          fun k2 => (wid, s.id, k2)).countP xv := by
    rw [atSiteSum, atSiteVars, siteReq_eq ss hsnd s hs]
  rw [helt]
  exact List.single_le_sum (fun x _ => Nat.zero_le x) _
    (List.mem_map_of_mem
      (fun s2 => ((s2.required.filter fun k2 =>
        (xKeys ws ss).contains (wid, s2.id, k2)).map fun k2 => (wid, s2.id, k2)).countP xv) hs)

/-! ### Counting helpers for the exchange argument (claim C10) -/

theorem b2n_le_one (b : Bool) : b2n b ≤ 1 := by
  cases b <;> simp [b2n]

theorem count_excl_ne (ws : List Worker) (ss : List Site) (wid : ℕ)
    (key : ℕ × ℕ × String) (h : wid ≠ key.1) :
    (ss.flatMap fun s2 => ((s2.required.filter fun k2 =>
      (xKeys ws ss).contains (wid, s2.id, k2)).map fun k2 => (wid, s2.id, k2))).count key
      = 0 := by
  rw [List.count_eq_countP]
  apply List.countP_eq_zero.mpr
  intro x hx
  simp only [List.mem_flatMap, List.mem_map] at hx
  rcases hx with ⟨s2, hs2, k2, hk2, rfl⟩
  simp only [beq_iff_eq]
  intro hcon
  exact h (by rw [← hcon])

theorem count_excl_key (ws : List Worker) (ss : List Site)
    (hsnd : (ss.map Site.id).Nodup) (hreq : ∀ s2 ∈ ss, s2.required.Nodup)
    (wid : ℕ) (s : Site) (k : String) (hs : s ∈ ss) (hk : k ∈ s.required)
    (hcont : (xKeys ws ss).contains (wid, s.id, k) = true) :
    (ss.flatMap fun s2 => ((s2.required.filter fun k2 =>
      (xKeys ws ss).contains (wid, s2.id, k2)).map fun k2 => (wid, s2.id, k2))).count
      (wid, s.id, k) = 1 := by
  rw [List.count_eq_countP, countP_flatMap]
  apply le_antisymm
  · apply sum_le_of_unique ss _ (fun s2 => s2.id == s.id) 1 _
      (countP_le_one_of_nodup_map ss Site.id s.id hsnd)
    intro s2 hs2
    by_cases hid : (s2.id == s.id) = true
    · rw [if_pos hid]
      have hid2 : s2.id = s.id := by simpa using hid
      rw [List.countP_map]
      have hle1 : ((s2.required.filter fun k2 =>
          (xKeys ws ss).contains (wid, s2.id, k2)).countP
            ((· == (wid, s.id, k)) ∘ fun k2 => (wid, s2.id, k2)))
          ≤ (s2.required.filter fun k2 =>
              (xKeys ws ss).contains (wid, s2.id, k2)).countP (fun k2 => k2 == k) := by
        apply List.countP_mono_left
        intro x _ hx
        simp only [Function.comp, prodBeq, Bool.and_eq_true, beq_iff_eq] at hx
        simp [hx.2.2]
      have hle2 : ((s2.required.filter fun k2 =>
          (xKeys ws ss).contains (wid, s2.id, k2)).countP (fun k2 => k2 == k))
          ≤ s2.required.countP (fun k2 => k2 == k) := by
        rw [List.countP_filter]
        apply List.countP_mono_left
        intro x _ hx
        simp only [Bool.and_eq_true] at hx
        exact hx.1
      have hle3 : s2.required.countP (fun k2 => k2 == k) ≤ 1 := by
        rw [← List.count_eq_countP]
        exact List.nodup_iff_count_le_one.mp (hreq s2 hs2) k
      omega
    · rw [if_neg hid]
      rw [List.countP_map]
      apply Nat.le_of_eq
      apply List.countP_eq_zero.mpr
      intro x _
      simp only [Function.comp, prodBeq, Bool.and_eq_true, beq_iff_eq]
      rintro ⟨-, h2, -⟩
      exact hid (by simp [h2])
  · have hmem0 : ((wid, s.id, k) : ℕ × ℕ × String) ∈
        (s.required.filter fun k2 => (xKeys ws ss).contains (wid, s.id, k2)).map
          fun k2 => (wid, s.id, k2) :=
      List.mem_map_of_mem _ (List.mem_filter.mpr ⟨hk, hcont⟩)
    have h1 : 0 < ((s.required.filter fun k2 =>
        (xKeys ws ss).contains (wid, s.id, k2)).map fun k2 => (wid, s.id, k2)).countP
          (· == (wid, s.id, k)) :=
      List.countP_pos_iff.mpr ⟨_, hmem0, by simp⟩
    have h2 := List.single_le_sum (l := (ss.map fun s2 => ((s2.required.filter fun k2 =>
      (xKeys ws ss).contains (wid, s2.id, k2)).map fun k2 =>
        (wid, s2.id, k2)).countP (· == (wid, s.id, k)))) (fun x _ => Nat.zero_le x) _
      (List.mem_map_of_mem _ hs)
    omega

theorem countP_id_filter_eq_one (ws : List Worker) (hwnd : (ws.map Worker.id).Nodup)
    (w : Worker) (hw : w ∈ ws) (c : Worker → Bool) (hc : c w = true) :
    (ws.filter c).countP (fun w2 => w2.id == w.id) = 1 := by
  apply le_antisymm
  · have h1 : (ws.filter c).countP (fun w2 => w2.id == w.id)
        = ws.countP (fun w2 => (w2.id == w.id) && c w2) := by
      rw [List.countP_filter]
    have h2 : ws.countP (fun w2 => (w2.id == w.id) && c w2)
        ≤ ws.countP (fun w2 => w2.id == w.id) := by
      apply List.countP_mono_left
      intro x _ hx
      simp only [Bool.and_eq_true] at hx
      exact hx.1
    have h3 := countP_le_one_of_nodup_map ws Worker.id w.id hwnd
    omega
  · exact List.countP_pos_iff.mpr ⟨w, List.mem_filter.mpr ⟨hw, hc⟩, by simp⟩

theorem count_worker_map (ws2 : List Worker) (sid : ℕ) (k2 : String)
    (key : ℕ × ℕ × String) :
    ((ws2.map fun w2 => (w2.id, sid, k2)).count key)
      = if sid = key.2.1 ∧ k2 = key.2.2 then ws2.countP (fun w2 => w2.id == key.1)
        else 0 := by
  rw [List.count_eq_countP, List.countP_map]
  by_cases h : sid = key.2.1 ∧ k2 = key.2.2
  · rw [if_pos h]
    apply List.countP_congr
    intro w2 _
    simp [Function.comp, prodBeq, h.1, h.2]
  · rw [if_neg h]
    apply List.countP_eq_zero.mpr
    intro w2 _
    simp only [Function.comp, prodBeq, Bool.and_eq_true, beq_iff_eq]
    rintro ⟨-, h2, h3⟩
    exact h ⟨h2, h3⟩

theorem count_atsite (ws : List Worker) (ss : List Site) (wid sid : ℕ)
    (key : ℕ × ℕ × String) :
    (atSiteVars ws ss wid sid).count key
      = if wid = key.1 ∧ sid = key.2.1 then
          ((siteReq ss sid).filter fun k2 =>
            (xKeys ws ss).contains (wid, sid, k2)).count key.2.2
        else 0 := by
  rw [atSiteVars, List.count_eq_countP, List.countP_map]
  by_cases h : wid = key.1 ∧ sid = key.2.1
  · rw [if_pos h, List.count_eq_countP]
    apply List.countP_congr
    intro x _
    simp [Function.comp, prodBeq, h.1, h.2]
  · rw [if_neg h]
    apply List.countP_eq_zero.mpr
    intro x _
    simp only [Function.comp, prodBeq, Bool.and_eq_true, beq_iff_eq]
    rintro ⟨h1, h2, -⟩
    exact h ⟨h1, h2⟩

theorem mem_pairKeys (ws : List Worker) (ss : List Site) (pk : ℕ × ℕ × ℕ)
    (h : pk ∈ pairKeys ws ss) :
    ∃ ab ∈ pairsOf (ws.map Worker.id), ∃ s2 ∈ ss, pk = (ab.1, ab.2, s2.id) := by
  simp only [pairKeys, List.mem_flatMap, List.mem_map] at h
  rcases h with ⟨ab, hab, s2, hs2, hpk⟩
  exact ⟨ab, hab, s2, hs2, hpk.symm⟩

/-- Exchange point for the C10 argument: assign worker w the unfilled slot
(s, k), clear that slot's unfilled variable, and raise the same-site
indicators of pairs at s involving w whose partner is already present. -/
def swapPoint (ws : List Worker) (ss : List Site) (p : Point) (s : Site) (k : String)
    (w : Worker) : Point :=
  ⟨fun key2 => key2 == (w.id, s.id, k) || p.xv key2,
   fun uk2 => !(uk2 == (s.id, k)) && p.uv uk2,
   fun pk2 => (pk2.2.2 == s.id && (pk2.1 == w.id || pk2.2.1 == w.id) &&
       decide (1 ≤ atSiteSum ws ss (if pk2.1 == w.id then pk2.2.1 else pk2.1) s.id p.xv))
     || p.zv pk2⟩

theorem swap_feasible (ws : List Worker) (ss : List Site)
    (hwnd : (ws.map Worker.id).Nodup) (hsnd : (ss.map Site.id).Nodup)
    (hreq : ∀ s2 ∈ ss, s2.required.Nodup)
    (p : Point) (hfeas : Feasible ws ss p)
    (s : Site) (hs : s ∈ ss) (k : String) (hk : k ∈ s.required)
    (hu : p.uv (s.id, k) = true)
    (w : Worker) (hw : w ∈ ws) (helig : k ∈ eligSkills w s)
    (h0 : exclSum ws ss w.id p.xv = 0) :
    Feasible ws ss (swapPoint ws ss p s k w) := by
  have hcont : (xKeys ws ss).contains (w.id, s.id, k) = true :=
    (contains_iff_mem _ _).mpr ((mem_xKeys ws ss _).mpr ⟨w, hw, s, hs, k, helig, rfl⟩)
  have hxv0 : p.xv (w.id, s.id, k) = false := by
    have hmem : ((w.id, s.id, k) : ℕ × ℕ × String) ∈ ss.flatMap fun s2 =>
        ((s2.required.filter fun k2 => (xKeys ws ss).contains (w.id, s2.id, k2)).map
          fun k2 => (w.id, s2.id, k2)) := by
      simp only [List.mem_flatMap, List.mem_map]
      exact ⟨s, hs, k, List.mem_filter.mpr ⟨hk, hcont⟩, rfl⟩
    rw [exclSum] at h0
    have := List.countP_eq_zero.mp h0 _ hmem
    simpa using this
  have hcov0 : coverSum ws ss s.id k p.xv = 0 := by
    have hc := hfeas.2.1 s hs k hk
    rw [hu] at hc
    simp [b2n] at hc
    exact hc
  have hxv_eq : (swapPoint ws ss p s k w).xv
      = fun key2 => key2 == (w.id, s.id, k) || p.xv key2 := rfl
  have huv_eq : (swapPoint ws ss p s k w).uv
      = fun uk2 => !(uk2 == (s.id, k)) && p.uv uk2 := rfl
  have hzv_eq : (swapPoint ws ss p s k w).zv
      = fun pk2 => (pk2.2.2 == s.id && (pk2.1 == w.id || pk2.2.1 == w.id) &&
          decide (1 ≤ atSiteSum ws ss (if pk2.1 == w.id then pk2.2.1 else pk2.1) s.id p.xv))
        || p.zv pk2 := rfl
  have hA_flip : ∀ wid sid : ℕ,
      atSiteSum ws ss wid sid (fun key2 => key2 == (w.id, s.id, k) || p.xv key2)
        = atSiteSum ws ss wid sid p.xv + (atSiteVars ws ss wid sid).count (w.id, s.id, k) := by
    intro wid sid
    rw [atSiteSum, atSiteSum]
    exact countP_flip_true (atSiteVars ws ss wid sid) p.xv (w.id, s.id, k) hxv0
  have hA_ne : ∀ wid sid : ℕ, ¬(wid = w.id ∧ sid = s.id) →
      atSiteSum ws ss wid sid (fun key2 => key2 == (w.id, s.id, k) || p.xv key2)
        = atSiteSum ws ss wid sid p.xv := by
    intro wid sid hne
    rw [hA_flip, count_atsite, if_neg hne]
    omega
  have hA_w : atSiteSum ws ss w.id s.id (fun key2 => key2 == (w.id, s.id, k) || p.xv key2)
      = 1 := by
    have hap : atSiteSum ws ss w.id s.id p.xv = 0 := by
      have hle := atSite_le_excl ws ss hsnd w.id s hs p.xv
      omega
    have hcnt : (atSiteVars ws ss w.id s.id).count (w.id, s.id, k) = 1 := by
      rw [count_atsite, if_pos ⟨rfl, rfl⟩, siteReq_eq ss hsnd s hs]
      exact List.count_eq_one_of_mem ((hreq s hs).filter _)
        (List.mem_filter.mpr ⟨hk, hcont⟩)
    rw [hA_flip, hap, hcnt]
  refine ⟨?_, ?_, ?_⟩
  · intro w2 hw2
    rw [exclSum, hxv_eq]
    rw [countP_flip_true _ p.xv _ hxv0]
    by_cases hww : w2.id = w.id
    · rw [hww]
      have hcnt := count_excl_key ws ss hsnd hreq w.id s k hs hk hcont
      rw [exclSum] at h0
      omega
    · have hcnt := count_excl_ne ws ss w2.id (w.id, s.id, k) (by simpa using hww)
      have hex := hfeas.1 w2 hw2
      rw [exclSum] at hex
      omega
  · intro s2 hs2 k2 hk2
    rw [coverSum, hxv_eq, huv_eq]
    simp only []
    rw [countP_flip_true _ p.xv _ hxv0]
    have hcc := count_worker_map
      (ws.filter fun w3 => (xKeys ws ss).contains (w3.id, s2.id, k2)) s2.id k2
      (w.id, s.id, k)
    by_cases hslot : s2.id = s.id ∧ k2 = k
    · rcases hslot with ⟨hsid, hkk⟩
      subst hkk
      rw [if_pos ⟨hsid, rfl⟩] at hcc
      have huvq : (!(((s2.id, k2) : ℕ × String) == (s.id, k2)) && p.uv (s2.id, k2)) = false := by
        simp [prodBeq, hsid]
      have hcnt1 : ((ws.filter fun w3 =>
          (xKeys ws ss).contains (w3.id, s2.id, k2)).countP fun w3 => w3.id == w.id) = 1 := by
        have hcw : (fun w3 : Worker => (xKeys ws ss).contains (w3.id, s2.id, k2)) w = true := by
          rw [hsid]
          exact hcont
        exact countP_id_filter_eq_one ws hwnd w hw _ hcw
      have hcs : coverSum ws ss s2.id k2 p.xv = 0 := by
        rw [hsid]
        exact hcov0
      rw [coverSum] at hcs
      rw [huvq, hcc, hcnt1, hcs]
      rfl
    · have hbeqf : (((s2.id, k2) : ℕ × String) == (s.id, k)) = false := by
        rw [Bool.eq_false_iff]
        intro hcon
        have : s2.id = s.id ∧ k2 = k := by
          have := (beq_iff_eq).mp hcon
          exact ⟨congrArg Prod.fst this, congrArg Prod.snd this⟩
        exact hslot this
      rw [if_neg hslot] at hcc
      have hcmain := hfeas.2.1 s2 hs2 k2 hk2
      rw [coverSum] at hcmain
      rw [hcc, hbeqf]
      simpa using hcmain
  · intro pk2 hpk2 hne1 hne2
    rcases mem_pairKeys ws ss pk2 hpk2 with ⟨ab, hab, s2, hs2, hpk⟩
    have hdist : pk2.1 ≠ pk2.2.1 := by
      rw [hpk]
      exact pairsOf_ne _ hwnd ab hab
    have hm1 : pk2.1 ∈ ws.map Worker.id := by
      rw [hpk]
      exact (pairsOf_mem _ ab hab).1
    have hm2 : pk2.2.1 ∈ ws.map Worker.id := by
      rw [hpk]
      exact (pairsOf_mem _ ab hab).2
    rcases List.mem_map.mp hm1 with ⟨wr1, hwr1, hid1⟩
    rcases List.mem_map.mp hm2 with ⟨wr2, hwr2, hid2⟩
    have hsiteid : pk2.2.2 = s2.id := by rw [hpk]
    have hb1 : atSiteSum ws ss pk2.1 pk2.2.2 p.xv ≤ 1 := by
      rw [hsiteid, ← hid1]
      calc atSiteSum ws ss wr1.id s2.id p.xv ≤ exclSum ws ss wr1.id p.xv :=
            atSite_le_excl ws ss hsnd wr1.id s2 hs2 p.xv
        _ ≤ 1 := hfeas.1 wr1 hwr1
    have hb2 : atSiteSum ws ss pk2.2.1 pk2.2.2 p.xv ≤ 1 := by
      rw [hsiteid, ← hid2]
      calc atSiteSum ws ss wr2.id s2.id p.xv ≤ exclSum ws ss wr2.id p.xv :=
            atSite_le_excl ws ss hsnd wr2.id s2 hs2 p.xv
        _ ≤ 1 := hfeas.1 wr2 hwr2
    have hpc := hfeas.2.2 pk2 hpk2 hne1 hne2
    rw [hxv_eq, hzv_eq]
    simp only []
    by_cases hsid : pk2.2.2 = s.id
    · have hsidb : (pk2.2.2 == s.id) = true := by simpa using hsid
      by_cases h1w : pk2.1 = w.id
      · have h1wb : (pk2.1 == w.id) = true := by simpa using h1w
        have hne21 : pk2.2.1 ≠ w.id := by
          intro hcon
          exact hdist (by rw [h1w, hcon])
        have hAq : atSiteSum ws ss pk2.1 pk2.2.2
            (fun key2 => key2 == (w.id, s.id, k) || p.xv key2) = 1 := by
          rw [h1w, hsid]
          exact hA_w
        have hBq : atSiteSum ws ss pk2.2.1 pk2.2.2
            (fun key2 => key2 == (w.id, s.id, k) || p.xv key2)
            = atSiteSum ws ss pk2.2.1 pk2.2.2 p.xv :=
          hA_ne _ _ (fun hcon => hne21 hcon.1)
        have hzsimp : ((pk2.2.2 == s.id && (pk2.1 == w.id || pk2.2.1 == w.id) &&
            decide (1 ≤ atSiteSum ws ss (if pk2.1 == w.id then pk2.2.1 else pk2.1) s.id p.xv))
              || p.zv pk2)
            = (decide (1 ≤ atSiteSum ws ss pk2.2.1 pk2.2.2 p.xv) || p.zv pk2) := by
          rw [hsidb, h1wb, if_pos rfl, hsid]
          simp
        rw [hAq, hBq, hzsimp]
        refine ⟨b2n_le_one _, ?_, ?_⟩
        · cases hpz : p.zv pk2 with
          | true =>
            have := hpc.2.1
            rw [hpz] at this
            simpa using le_trans (b2n_le_one _) this
          | false =>
            cases hdec : decide (1 ≤ atSiteSum ws ss pk2.2.1 pk2.2.2 p.xv) with
            | true =>
              have := of_decide_eq_true hdec
              simpa [b2n] using this
            | false => simp [b2n]
        · by_cases hB0 : atSiteSum ws ss pk2.2.1 pk2.2.2 p.xv = 0
          · rw [hB0]
            have := b2n_le_one ((decide (1 ≤ atSiteSum ws ss pk2.2.1 pk2.2.2 p.xv) || p.zv pk2))
            omega
          · have hge1 : 1 ≤ atSiteSum ws ss pk2.2.1 pk2.2.2 p.xv := by omega
            have hdec : decide (1 ≤ atSiteSum ws ss pk2.2.1 pk2.2.2 p.xv) = true :=
              decide_eq_true hge1
            rw [hdec, Bool.true_or]
            have : b2n true = 1 := rfl
            omega
      · by_cases h2w : pk2.2.1 = w.id
        · have h2wb : (pk2.2.1 == w.id) = true := by simpa using h2w
          have h1wb : (pk2.1 == w.id) = false := by simpa using h1w
          have hBq : atSiteSum ws ss pk2.2.1 pk2.2.2
              (fun key2 => key2 == (w.id, s.id, k) || p.xv key2) = 1 := by
            rw [h2w, hsid]
            exact hA_w
          have hAq : atSiteSum ws ss pk2.1 pk2.2.2
              (fun key2 => key2 == (w.id, s.id, k) || p.xv key2)
              = atSiteSum ws ss pk2.1 pk2.2.2 p.xv :=
            hA_ne _ _ (fun hcon => h1w hcon.1)
          have hzsimp : ((pk2.2.2 == s.id && (pk2.1 == w.id || pk2.2.1 == w.id) &&
              decide (1 ≤ atSiteSum ws ss (if pk2.1 == w.id then pk2.2.1 else pk2.1) s.id p.xv))
                || p.zv pk2)
              = (decide (1 ≤ atSiteSum ws ss pk2.1 pk2.2.2 p.xv) || p.zv pk2) := by
            rw [hsidb, h1wb, h2wb, if_neg (by simp), hsid]
            simp
          rw [hAq, hBq, hzsimp]
          refine ⟨?_, b2n_le_one _, ?_⟩
          · cases hpz : p.zv pk2 with
            | true =>
              have := hpc.1
              rw [hpz] at this
              simpa using le_trans (b2n_le_one _) this
            | false =>
              cases hdec : decide (1 ≤ atSiteSum ws ss pk2.1 pk2.2.2 p.xv) with
              | true =>
                have := of_decide_eq_true hdec
                simpa [b2n] using this
              | false => simp [b2n]
          · by_cases hA0 : atSiteSum ws ss pk2.1 pk2.2.2 p.xv = 0
            · rw [hA0]
              have := b2n_le_one ((decide (1 ≤ atSiteSum ws ss pk2.1 pk2.2.2 p.xv) || p.zv pk2))
              omega
            · have hge1 : 1 ≤ atSiteSum ws ss pk2.1 pk2.2.2 p.xv := by omega
              have hdec : decide (1 ≤ atSiteSum ws ss pk2.1 pk2.2.2 p.xv) = true :=
                decide_eq_true hge1
              rw [hdec, Bool.true_or]
              have : b2n true = 1 := rfl
              omega
        · have h1wb : (pk2.1 == w.id) = false := by simpa using h1w
          have h2wb : (pk2.2.1 == w.id) = false := by simpa using h2w
          have hAq : atSiteSum ws ss pk2.1 pk2.2.2
              (fun key2 => key2 == (w.id, s.id, k) || p.xv key2)
              = atSiteSum ws ss pk2.1 pk2.2.2 p.xv :=
            hA_ne _ _ (fun hcon => h1w hcon.1)
          have hBq : atSiteSum ws ss pk2.2.1 pk2.2.2
              (fun key2 => key2 == (w.id, s.id, k) || p.xv key2)
              = atSiteSum ws ss pk2.2.1 pk2.2.2 p.xv :=
            hA_ne _ _ (fun hcon => h2w hcon.1)
          have hzsimp : ((pk2.2.2 == s.id && (pk2.1 == w.id || pk2.2.1 == w.id) &&
              decide (1 ≤ atSiteSum ws ss (if pk2.1 == w.id then pk2.2.1 else pk2.1) s.id p.xv))
                || p.zv pk2) = p.zv pk2 := by
            rw [h1wb, h2wb]
            simp
          rw [hAq, hBq, hzsimp]
          exact hpc
    · have hsidb : (pk2.2.2 == s.id) = false := by simpa using hsid
      have hAq : atSiteSum ws ss pk2.1 pk2.2.2
          (fun key2 => key2 == (w.id, s.id, k) || p.xv key2)
          = atSiteSum ws ss pk2.1 pk2.2.2 p.xv :=
        hA_ne _ _ (fun hcon => hsid hcon.2)
      have hBq : atSiteSum ws ss pk2.2.1 pk2.2.2
          (fun key2 => key2 == (w.id, s.id, k) || p.xv key2)
          = atSiteSum ws ss pk2.2.1 pk2.2.2 p.xv :=
        hA_ne _ _ (fun hcon => hsid hcon.2)
      have hzsimp : ((pk2.2.2 == s.id && (pk2.1 == w.id || pk2.2.1 == w.id) &&
          decide (1 ≤ atSiteSum ws ss (if pk2.1 == w.id then pk2.2.1 else pk2.1) s.id p.xv))
            || p.zv pk2) = p.zv pk2 := by
        rw [hsidb]
        simp
      rw [hAq, hBq, hzsimp]
      exact hpc

theorem countP_xTriples_key (ws : List Worker) (ss : List Site)
    (hwnd : (ws.map Worker.id).Nodup) (hsnd : (ss.map Site.id).Nodup)
    (hreq : ∀ s2 ∈ ss, s2.required.Nodup)
    (w : Worker) (s : Site) (k : String) (hw : w ∈ ws) (hs : s ∈ ss)
    (helig : k ∈ eligSkills w s) :
    (xTriples ws ss).countP
      (fun t => (t.1.id, t.2.1.id, t.2.2) == ((w.id, s.id, k) : ℕ × ℕ × String)) = 1 := by
  rw [xTriples, countP_flatMap]
  apply le_antisymm
  · apply sum_le_of_unique ws _ (fun w2 => w2.id == w.id) 1 _
      (countP_le_one_of_nodup_map ws Worker.id w.id hwnd)
    intro w2 hw2
    by_cases hid : (w2.id == w.id) = true
    · rw [if_pos hid]
      rw [countP_flatMap]
      apply sum_le_of_unique ss _ (fun s2 => s2.id == s.id) 1 _
        (countP_le_one_of_nodup_map ss Site.id s.id hsnd)
      intro s2 hs2
      by_cases hid2 : (s2.id == s.id) = true
      · rw [if_pos hid2]
        rw [List.countP_map]
        have hle1 : ((eligSkills w2 s2).countP
            ((fun t : Worker × Site × String =>
              (t.1.id, t.2.1.id, t.2.2) == ((w.id, s.id, k) : ℕ × ℕ × String)) ∘
                fun k2 => (w2, s2, k2)))
            ≤ (eligSkills w2 s2).countP (fun k2 => k2 == k) := by
          apply List.countP_mono_left
          intro x _ hx
          simp only [Function.comp, prodBeq, Bool.and_eq_true, beq_iff_eq] at hx
          simp [hx.2.2]
        have hle2 : (eligSkills w2 s2).countP (fun k2 => k2 == k)
            ≤ s2.required.countP (fun k2 => k2 == k) := by
          rw [eligSkills, List.countP_filter]
          apply List.countP_mono_left
          intro x _ hx
          simp only [Bool.and_eq_true] at hx
          exact hx.1
        have hle3 : s2.required.countP (fun k2 => k2 == k) ≤ 1 := by
          rw [← List.count_eq_countP]
          exact List.nodup_iff_count_le_one.mp (hreq s2 hs2) k
        omega
      · rw [if_neg hid2]
        rw [List.countP_map]
        apply Nat.le_of_eq
        apply List.countP_eq_zero.mpr
        intro x _
        simp only [Function.comp, prodBeq, Bool.and_eq_true, beq_iff_eq]
        rintro ⟨-, h2, -⟩
        exact hid2 (by simp [h2])
    · rw [if_neg hid]
      apply Nat.le_of_eq
      apply List.countP_eq_zero.mpr
      intro t ht
      rcases List.mem_flatMap.mp ht with ⟨s3, hs3, ht2⟩
      rcases List.mem_map.mp ht2 with ⟨k2, hk2, rfl⟩
      simp only [prodBeq, Bool.and_eq_true, beq_iff_eq]
      rintro ⟨h1, -, -⟩
      exact hid (by simp [h1])
  · have hmem0 : ((w, s, k) : Worker × Site × String) ∈
        ss.flatMap fun s2 => (eligSkills w s2).map fun k2 => (w, s2, k2) := by
      simp only [List.mem_flatMap, List.mem_map]
      exact ⟨s, hs, k, helig, rfl⟩
    have h1 : 0 < (ss.flatMap fun s2 => (eligSkills w s2).map fun k2 => (w, s2, k2)).countP
        (fun t => (t.1.id, t.2.1.id, t.2.2) == ((w.id, s.id, k) : ℕ × ℕ × String)) :=
      List.countP_pos_iff.mpr ⟨_, hmem0, by simp⟩
    have h2 := List.single_le_sum (l := ws.map fun w2 =>
      ((ss.flatMap fun s2 => (eligSkills w2 s2).map fun k2 => (w2, s2, k2)).countP
        (fun t => (t.1.id, t.2.1.id, t.2.2) == ((w.id, s.id, k) : ℕ × ℕ × String))))
      (fun x _ => Nat.zero_le x) _ (List.mem_map_of_mem _ hw)
    omega

theorem countP_uPairs_key (ss : List Site) (hsnd : (ss.map Site.id).Nodup)
    (hreq : ∀ s2 ∈ ss, s2.required.Nodup)
    (s : Site) (k : String) (hs : s ∈ ss) (hk : k ∈ s.required) :
    (uPairs ss).countP (fun t => (t.1.id, t.2) == ((s.id, k) : ℕ × String)) = 1 := by
  rw [uPairs, countP_flatMap]
  apply le_antisymm
  · apply sum_le_of_unique ss _ (fun s2 => s2.id == s.id) 1 _
      (countP_le_one_of_nodup_map ss Site.id s.id hsnd)
    intro s2 hs2
    by_cases hid : (s2.id == s.id) = true
    · rw [if_pos hid]
      rw [List.countP_map]
      have hle1 : (s2.required.countP
          ((fun t : Site × String => (t.1.id, t.2) == ((s.id, k) : ℕ × String)) ∘
            fun k2 => (s2, k2)))
          ≤ s2.required.countP (fun k2 => k2 == k) := by
        apply List.countP_mono_left
        intro x _ hx
        simp only [Function.comp, prodBeq, Bool.and_eq_true, beq_iff_eq] at hx
        simp [hx.2]
      have hle3 : s2.required.countP (fun k2 => k2 == k) ≤ 1 := by
        rw [← List.count_eq_countP]
        exact List.nodup_iff_count_le_one.mp (hreq s2 hs2) k
      omega
    · rw [if_neg hid]
      rw [List.countP_map]
      apply Nat.le_of_eq
      apply List.countP_eq_zero.mpr
      intro x _
      simp only [Function.comp, prodBeq, Bool.and_eq_true, beq_iff_eq]
      rintro ⟨h1, -⟩
      exact hid (by simp [h1])
  · have hmem0 : ((s, k) : Site × String) ∈ s.required.map fun k2 => (s, k2) :=
      List.mem_map_of_mem _ hk
    have h1 : 0 < (s.required.map fun k2 => (s, k2)).countP
        (fun t => (t.1.id, t.2) == ((s.id, k) : ℕ × String)) :=
      List.countP_pos_iff.mpr ⟨_, hmem0, by simp⟩
    have h2 := List.single_le_sum (l := ss.map fun s2 =>
      ((s2.required.map fun k2 => (s2, k2)).countP
        (fun t => (t.1.id, t.2) == ((s.id, k) : ℕ × String))))
      (fun x _ => Nat.zero_le x) _ (List.mem_map_of_mem _ hs)
    omega

/-- C10: under positive site priorities, weights in the unit interval,
proficiencies in the unit interval, a nonnegative distance function, and
dict-like (duplicate-free) inputs, every optimal point of the constructed
model assigns each worker eligible for an unfilled slot somewhere: each
assignment cost is at most 20 (hence below 100), each unfilled penalty is at
least 100, and every co-location coefficient is nonpositive, so assigning an
idle eligible worker to the unfilled slot strictly lowers the objective. -/
theorem optimal_no_idle_eligible
    (dist : Coord → Coord → ℚ) (inp : Input) (m : Model)
    (hdist : ∀ a b, 0 ≤ dist a b)
    (hsw0 : 0 ≤ inp.skillW) (hsw1 : inp.skillW ≤ 1)
    (hdw0 : 0 ≤ inp.distW) (hdw1 : inp.distW ≤ 1)
    (hcw0 : 0 ≤ inp.compatW) (hcw1 : inp.compatW ≤ 1)
    (hprof : ∀ w2 ∈ inp.workers, ∀ e ∈ w2.skills, 0 ≤ e.2 ∧ e.2 ≤ 1)
    (hprio : ∀ s2 ∈ inp.sites, ∃ pv, (spOf inp).lookup s2.id = some pv ∧ 0 < pv)
    (hwnd : (inp.workers.map Worker.id).Nodup)
    (hsnd : (inp.sites.map Site.id).Nodup)
    (hreq : ∀ s2 ∈ inp.sites, s2.required.Nodup)
    (hbuild : buildModel dist inp = .ok m)
    (p : Point) (hfeas : Feasible inp.workers inp.sites p)
    (hopt : ∀ q : Point, Feasible inp.workers inp.sites q → objVal m p ≤ objVal m q)
    (s : Site) (hs : s ∈ inp.sites) (k : String) (hk : k ∈ s.required)
    (hu : p.uv (s.id, k) = true)
    (w : Worker) (hw : w ∈ inp.workers) (helig : k ∈ eligSkills w s) :
    0 < exclSum inp.workers inp.sites w.id p.xv := by
  by_contra hcon
  have h0 : exclSum inp.workers inp.sites w.id p.xv = 0 := by omega
  have hm := buildModel_lists dist inp m hbuild
    (fun s2 hs2 => (hprio s2 hs2).imp fun pv hpv => hpv.1)
  obtain ⟨hmx, hmu, hmz⟩ := hm
  set q := swapPoint inp.workers inp.sites p s k w with hq
  have hqf : Feasible inp.workers inp.sites q :=
    swap_feasible inp.workers inp.sites hwnd hsnd hreq p hfeas s hs k hk hu w hw helig h0
  have hoq := hopt q hqf
  have hxv0 : p.xv (w.id, s.id, k) = false := by
    have hcont : (xKeys inp.workers inp.sites).contains (w.id, s.id, k) = true :=
      (contains_iff_mem _ _).mpr
        ((mem_xKeys inp.workers inp.sites _).mpr ⟨w, hw, s, hs, k, helig, rfl⟩)
    have hmem : ((w.id, s.id, k) : ℕ × ℕ × String) ∈ inp.sites.flatMap fun s2 =>
        ((s2.required.filter fun k2 =>
          (xKeys inp.workers inp.sites).contains (w.id, s2.id, k2)).map
            fun k2 => (w.id, s2.id, k2)) := by
      simp only [List.mem_flatMap, List.mem_map]
      exact ⟨s, hs, k, List.mem_filter.mpr ⟨hk, hcont⟩, rfl⟩
    rw [exclSum] at h0
    have := List.countP_eq_zero.mp h0 _ hmem
    simpa using this
  have hcountx : m.xC.countP (fun e => e.1 == ((w.id, s.id, k) : ℕ × ℕ × String)) = 1 := by
    rw [hmx, List.countP_map]
    rw [List.countP_congr fun t _ => Iff.rfl]
    exact countP_xTriples_key inp.workers inp.sites hwnd hsnd hreq w s k hw hs helig
  have hcx : ∀ e ∈ m.xC, e.1 = ((w.id, s.id, k) : ℕ × ℕ × String) →
      e.2 = xCoeff dist inp w s k := by
    intro e he heq
    rw [hmx] at he
    rcases List.mem_map.mp he with ⟨t, ht, rfl⟩
    obtain ⟨ht1, ht2, ht3⟩ := xTriples_mem _ _ t ht
    simp only [Prod.mk.injEq] at heq
    have hw2 : t.1 = w := List.inj_on_of_nodup_map hwnd ht1 hw heq.1
    have hs2 : t.2.1 = s := List.inj_on_of_nodup_map hsnd ht2 hs heq.2.1
    rw [hw2, hs2, heq.2.2]
  have hcountu : m.uC.countP (fun e => e.1 == ((s.id, k) : ℕ × String)) = 1 := by
    rw [hmu, List.countP_map]
    rw [List.countP_congr fun t _ => Iff.rfl]
    exact countP_uPairs_key inp.sites hsnd hreq s k hs hk
  have hcu : ∀ e ∈ m.uC, e.1 = ((s.id, k) : ℕ × String) → e.2 = uCoeff inp s := by
    intro e he heq
    rw [hmu] at he
    rcases List.mem_map.mp he with ⟨t, ht, rfl⟩
    obtain ⟨ht1, -⟩ := uPairs_mem _ t ht
    simp only [Prod.mk.injEq] at heq
    have hs2 : t.1 = s := List.inj_on_of_nodup_map hsnd ht1 hs heq.1
    rw [hs2]
  have hznn : ∀ e ∈ m.zC, e.2 ≤ 0 := by
    intro e he
    rw [hmz] at he
    rcases List.mem_map.mp he with ⟨pk, hpk, rfl⟩
    exact zCoeff_nonpos inp.compatW hcw0 (wcOf inp) pk.1 pk.2.1
  have hxsum : (m.xC.map fun e => e.2 * b2q (q.xv e.1)).sum
      = (m.xC.map fun e => e.2 * b2q (p.xv e.1)).sum + xCoeff dist inp w s k := by
    have hqx : q.xv = fun key2 => key2 == (w.id, s.id, k) || p.xv key2 := rfl
    rw [hqx]
    exact sum_coeff_flip_true m.xC p.xv (w.id, s.id, k) _ hxv0 hcountx hcx
  have husum : (m.uC.map fun e => e.2 * b2q (q.uv e.1)).sum
      = (m.uC.map fun e => e.2 * b2q (p.uv e.1)).sum - uCoeff inp s := by
    have hqu : q.uv = fun uk2 => !(uk2 == (s.id, k)) && p.uv uk2 := rfl
    rw [hqu]
    exact sum_coeff_flip_false m.uC p.uv (s.id, k) _ hu hcountu hcu
  have hzsum : (m.zC.map fun e => e.2 * b2q (q.zv e.1)).sum
      ≤ (m.zC.map fun e => e.2 * b2q (p.zv e.1)).sum := by
    apply sum_coeff_mono m.zC p.zv q.zv hznn
    intro pk2 hpz
    have hqz : q.zv pk2 = ((pk2.2.2 == s.id && (pk2.1 == w.id || pk2.2.1 == w.id) &&
        decide (1 ≤ atSiteSum inp.workers inp.sites
          (if pk2.1 == w.id then pk2.2.1 else pk2.1) s.id p.xv)) || p.zv pk2) := rfl
    rw [hqz, hpz, Bool.or_true]
  rcases hprio s hs with ⟨pv, hpl, hpv⟩
  have hnpb := nprOf_getD_bounds inp s pv hpl hpv
  have hxcb : xCoeff dist inp w s k ≤ 20 := by
    rw [xCoeff]
    have hndb := normalizedDistance_bounds dist inp.workers inp.sites w s hdist hw hs
    have hpb := profOf_bounds w (hprof w hw) k
    exact assignCost_le_20 _ _ _ _ _ hdw0 hdw1 hsw0 hsw1 hndb.1 hndb.2 hpb.1 hpb.2
      hnpb.1 hnpb.2
  have hucb : 100 ≤ uCoeff inp s := uCoeff_ge_100 inp s hnpb.2
  rw [objVal, objVal, hxsum, husum] at hoq
  linarith

/-- Concrete worker list for the optimality claim: one worker fully
proficient in "e". -/
def ws10 : List Worker := [⟨3, [("e", 1)], (0, 0)⟩]

/-- Concrete site list for the optimality claim: two sites each requiring
"e", so the single worker can fill only one of them. -/
def ss10 : List Site := [⟨1, ["e"], (0, 0)⟩, ⟨2, ["e"], (0, 0)⟩]

/-- Concrete input for the optimality claim, with all default parameters. -/
def inp10 : Input :=
  { workers := ws10
    sites := ss10 }

/-- The model built for `inp10` under the zero distance function: both
assignment costs are 0 (full proficiency, zero distance) and both unfilled
penalties are 100 (all normalized priorities are 1). -/
def m10 : Model :=
  ⟨[((3, 1, "e"), 0), ((3, 2, "e"), 0)], [((1, "e"), 100), ((2, "e"), 100)], []⟩

/-- Concrete point: the worker fills slot (1, e); slot (2, e) is unfilled. -/
def p10 : Point :=
  ⟨fun key => key == (3, 1, "e"), fun uk => uk == (2, "e"), fun _ => false⟩

theorem excl10eq (xv : ℕ × ℕ × String → Bool) :
    exclSum ws10 ss10 3 xv = b2n (xv (3, 1, "e")) + b2n (xv (3, 2, "e")) := by
  have h : exclSum ws10 ss10 3 xv
      = ([(3, 1, "e"), (3, 2, "e")] : List (ℕ × ℕ × String)).countP xv := rfl
  rw [h]
  cases hx1 : xv (3, 1, "e") <;> cases hx2 : xv (3, 2, "e") <;>
    simp [List.countP_cons, hx1, hx2, b2n]

theorem cover10one (xv : ℕ × ℕ × String → Bool) :
    coverSum ws10 ss10 1 "e" xv = b2n (xv (3, 1, "e")) := by
  have h : coverSum ws10 ss10 1 "e" xv
      = ([(3, 1, "e")] : List (ℕ × ℕ × String)).countP xv := rfl
  rw [h]
  cases hx1 : xv (3, 1, "e") <;> simp [List.countP_cons, hx1, b2n]

theorem cover10two (xv : ℕ × ℕ × String → Bool) :
    coverSum ws10 ss10 2 "e" xv = b2n (xv (3, 2, "e")) := by
  have h : coverSum ws10 ss10 2 "e" xv
      = ([(3, 2, "e")] : List (ℕ × ℕ × String)).countP xv := rfl
  rw [h]
  cases hx2 : xv (3, 2, "e") <;> simp [List.countP_cons, hx2, b2n]

theorem objVal10 (q : Point) :
    objVal m10 q = 100 * b2q (q.uv (1, "e")) + 100 * b2q (q.uv (2, "e")) := by
  have h : objVal m10 q
      = (0 * b2q (q.xv (3, 1, "e")) + (0 * b2q (q.xv (3, 2, "e")) + 0)) +
        (100 * b2q (q.uv (1, "e")) + (100 * b2q (q.uv (2, "e")) + 0)) + 0 := rfl
  rw [h]
  ring

/-- Witness: at the concrete input `inp10` with model `m10`, the point `p10`
is feasible, leaves slot (2, e) unfilled, and the claim's theorem concludes
the single worker must be assigned — as it indeed is at `p10`. -/
theorem optimal_no_idle_eligible_witness :
    Feasible ws10 ss10 p10 ∧ p10.uv (2, "e") = true ∧
    0 < exclSum ws10 ss10 3 p10.xv := by
  refine ⟨by decide, rfl, ?_⟩
  have hprof : ∀ w2 ∈ inp10.workers, ∀ e ∈ w2.skills, 0 ≤ e.2 ∧ e.2 ≤ 1 := by
    intro w2 hw2 e he
    have hw2' : w2 ∈ [(⟨3, [("e", 1)], (0, 0)⟩ : Worker)] := hw2
    rw [List.mem_singleton] at hw2'
    subst hw2'
    have he' : e ∈ [(("e", 1) : String × ℚ)] := he
    rw [List.mem_singleton] at he'
    subst he'
    norm_num
  have hprio : ∀ s2 ∈ inp10.sites, ∃ pv, (spOf inp10).lookup s2.id = some pv ∧ 0 < pv := by
    intro s2 hs2
    have hs2' : s2 ∈ [(⟨1, ["e"], (0, 0)⟩ : Site), ⟨2, ["e"], (0, 0)⟩] := hs2
    rw [List.mem_cons, List.mem_singleton] at hs2'
    rcases hs2' with rfl | rfl
    · exact ⟨1, rfl, by norm_num⟩
    · exact ⟨1, rfl, by norm_num⟩
  have hbuild : buildModel dzero inp10 = .ok m10 := by
    simp [buildModel, spOf, inp10, ws10, ss10, pyMax, mapE, keyLookup, nprOf, maxPOf,
      uPairs, xTriples, pairKeys, pairsOf, List.lookup, xEntry, uEntry, m10,
      defaultPriorities, eligSkills, assignCost, normalizedDistance, maxDistance,
      profOf, dzero]
    norm_num
  have hopt : ∀ q : Point, Feasible inp10.workers inp10.sites q →
      objVal m10 p10 ≤ objVal m10 q := by
    intro q hq
    obtain ⟨hexcl, hcover, -⟩ := hq
    have he : exclSum ws10 ss10 3 q.xv ≤ 1 :=
      hexcl ⟨3, [("e", 1)], (0, 0)⟩ (List.mem_cons_self _ _)
    have hc1 : coverSum ws10 ss10 1 "e" q.xv + b2n (q.uv (1, "e")) = 1 :=
      hcover ⟨1, ["e"], (0, 0)⟩ (List.mem_cons_self _ _) "e" (List.mem_cons_self _ _)
    have hc2 : coverSum ws10 ss10 2 "e" q.xv + b2n (q.uv (2, "e")) = 1 :=
      hcover ⟨2, ["e"], (0, 0)⟩ (List.mem_cons_of_mem _ (List.mem_cons_self _ _)) "e"
        (List.mem_cons_self _ _)
    rw [excl10eq] at he
    rw [cover10one] at hc1
    rw [cover10two] at hc2
    have hcase : q.uv (1, "e") = true ∨ q.uv (2, "e") = true := by
      by_contra hcon
      push_neg at hcon
      obtain ⟨h1, h2⟩ := hcon
      rw [Bool.eq_false_iff.mpr h1] at hc1
      rw [Bool.eq_false_iff.mpr h2] at hc2
      rw [show b2n false = 0 from rfl] at hc1 hc2
      omega
    have hpv : objVal m10 p10 = 100 := by
      rw [objVal10]
      rw [show p10.uv (1, "e") = false from rfl, show p10.uv (2, "e") = true from rfl]
      norm_num [b2q]
    rw [hpv, objVal10]
    have hq1 : (0 : ℚ) ≤ b2q (q.uv (1, "e")) := by
      cases hb : q.uv (1, "e") <;> norm_num [b2q]
    have hq2 : (0 : ℚ) ≤ b2q (q.uv (2, "e")) := by
      cases hb : q.uv (2, "e") <;> norm_num [b2q]
    rcases hcase with h | h
    · rw [h, show b2q true = 1 from rfl]
      linarith
    · rw [h, show b2q true = 1 from rfl]
      linarith
  exact optimal_no_idle_eligible dzero inp10 m10
    (fun a b => le_refl 0)
    (by norm_num [inp10]) (by norm_num [inp10])
    (by norm_num [inp10]) (by norm_num [inp10])
    (by norm_num [inp10]) (by norm_num [inp10])
    hprof hprio (by decide) (by decide) (by decide)
    hbuild p10 (by decide) hopt
    ⟨2, ["e"], (0, 0)⟩ (List.mem_cons_of_mem _ (List.mem_cons_self _ _))
    "e" (List.mem_cons_self _ _) rfl
    ⟨3, [("e", 1)], (0, 0)⟩ (List.mem_cons_self _ _) (by decide)

end FrSolver
